import Mathlib

/-!
# OptiTask task store (`backend/c_core/task_manager.c`)

A shallow embedding of the C task store and a verification of its specification.

* C `int` values are mathematical integers; every arithmetic result the C code stores in an
  `int` is reduced to the 32-bit two's complement range by `wrap`.
* `char*` values are `Option String` (`none` is `NULL`).
* The heap block behind `g_tasks` is a list of slots, one per element the block can hold;
  `g_count` and `g_cap` are kept as the separate integers they are in the source.
* The outcome of every allocator call (`malloc` in `tm_strdup`, `realloc` in `tm_ensure_cap`)
  is an input of the model, carried by `Alloc`.
* A call either completes (`Except.ok`) or has no result (`Except.error`): an access outside
  the block, a dereference of `NULL`, or a loop that never exits.
-/

namespace OptiTask

/-! ## Machine integers -/

/-- Largest value of the C type `int`. -/
def INT_MAX : Int := 2147483647

/-- Smallest value of the C type `int`. -/
def INT_MIN : Int := -2147483648

/-- Reduction of a mathematical integer to the 32-bit two's complement range. -/
def wrap (x : Int) : Int := (x + 2147483648) % 4294967296 - 2147483648

/-! ## Data model -/

/-- The `Task` struct (lines 5-14). -/
structure Task where
  id : Int
  name : Option String
  category : Option String
  priority : Int
  deadline : Option String
  start_time : Option String
  duration_mins : Int
  status : Int
deriving DecidableEq, Repr

/-- The four file-scope variables (lines 16-19). `g_tasks = none` is the `NULL` pointer;
`g_tasks = some buf` points to a block of `buf.length` slots. -/
structure Store where
  g_tasks : Option (List Task)
  g_count : Int
  g_cap : Int
  g_next_id : Int
deriving DecidableEq, Repr

/-- The values given by the static initialisers. -/
def Store.initial : Store :=
  { g_tasks := none, g_count := 0, g_cap := 0, g_next_id := 1 }

/-- Ways in which a call can fail to complete. -/
inductive Fault where
  | null_deref
  | out_of_bounds
  | diverges
deriving DecidableEq, Repr

/-- Outcomes of the allocator calls made during one call of the interface. -/
structure Alloc where
  /-- whether `realloc` in `tm_ensure_cap` returns a block -/
  realloc_ok : Bool
  /-- the content found in the slots that `realloc` adds to the block -/
  junk : Task
  /-- whether `malloc` in `tm_strdup` returns a block, per duplicated field -/
  name_ok : Bool
  category_ok : Bool
  deadline_ok : Bool
  start_time_ok : Bool
  /-- whether the fall-back `tm_strdup("")` of `tm_update_task` returns a block -/
  deadline_retry_ok : Bool
  start_time_retry_ok : Bool
deriving DecidableEq, Repr

/-- The slot content used by the allocator outcome `Alloc.granted`. -/
def Task.blank : Task :=
  { id := 0, name := none, category := none, priority := 0, deadline := none,
    start_time := none, duration_mins := 0, status := 0 }

/-- Every allocator call returns a block. -/
def Alloc.granted : Alloc :=
  { realloc_ok := true, junk := Task.blank, name_ok := true, category_ok := true,
    deadline_ok := true, start_time_ok := true, deadline_retry_ok := true,
    start_time_retry_ok := true }

/-- The expression `g_tasks[i]` read. -/
def Store.read (s : Store) (i : Int) : Except Fault Task :=
  match s.g_tasks with
  | none => .error .null_deref
  | some buf =>
    if 0 ≤ i then
      match buf[i.toNat]? with
      | some t => .ok t
      | none => .error .out_of_bounds
    else .error .out_of_bounds

/-- The assignment `g_tasks[i] = t`. -/
def Store.write (s : Store) (i : Int) (t : Task) : Except Fault Store :=
  match s.g_tasks with
  | none => .error .null_deref
  | some buf =>
    if 0 ≤ i ∧ i.toNat < buf.length then
      .ok { s with g_tasks := some (buf.set i.toNat t) }
    else .error .out_of_bounds

/-- The records the store holds: the first `g_count` slots of the block. -/
def Store.records (s : Store) : List Task :=
  (s.g_tasks.getD []).take s.g_count.toNat

/-! ## Helpers of the source -/

/-- `tm_strdup` (lines 21-32): a copy of `s`, of the empty string when `s` is `NULL`,
or `NULL` when `malloc` fails. -/
def tm_strdup (malloc_ok : Bool) (s : Option String) : Option String :=
  match s with
  | none => if malloc_ok then some "" else none
  | some str => if malloc_ok then some str else none

/-- `tm_free_task` (lines 34-41), on the slot content. -/
def tm_free_task (t : Task) : Task :=
  { t with name := none, category := none, deadline := none, start_time := none }

/-- The loop `while (new_cap < need) new_cap *= 2;` (line 46). The first argument bounds the
number of iterations that are followed: thirty-two doublings take every `int` to `0`,
which the loop body leaves fixed. -/
def tm_ensure_cap_loop (need : Int) : Nat → Int → Except Fault Int
  | 0, new_cap => if new_cap < need then .error .diverges else .ok new_cap
  | k + 1, new_cap =>
    if new_cap < need then tm_ensure_cap_loop need k (wrap (new_cap * 2)) else .ok new_cap

/-- The block `realloc` returns on success: the old content up to the smaller of the two
sizes, then the content found in the added slots. -/
def realloc_block (old : Option (List Task)) (n : Nat) (junk : Task) : List Task :=
  ((old.getD []) ++ List.replicate (n - (old.getD []).length) junk).take n

/-- `tm_ensure_cap` (lines 43-51). -/
def tm_ensure_cap (a : Alloc) (s : Store) (need : Int) : Except Fault Store :=
  if s.g_cap ≥ need then .ok s
  else
    match tm_ensure_cap_loop need 32 (if s.g_cap = 0 then 16 else wrap (s.g_cap * 2)) with
    | .error e => .error e
    | .ok new_cap =>
      if a.realloc_ok then
        .ok { s with g_tasks := some (realloc_block s.g_tasks new_cap.toNat a.junk),
                     g_cap := new_cap }
      else .ok s

/-- The loop of `tm_find_index_by_id` (lines 54-56); the first argument is the number of
iterations left, `g_count - i`. The index stays below `g_count`, so `i + 1` is an `int`. -/
def tm_find_index_loop (s : Store) (id : Int) : Nat → Int → Except Fault Int
  | 0, _ => .ok (-1)
  | n + 1, i =>
    match s.read i with
    | .error e => .error e
    | .ok t => if t.id = id then .ok i else tm_find_index_loop s id n (i + 1)

/-- `tm_find_index_by_id` (lines 53-58). -/
def tm_find_index_by_id (s : Store) (id : Int) : Except Fault Int :=
  tm_find_index_loop s id s.g_count.toNat 0

/-! ## The interface -/

/-- `tm_init` (lines 60-68). -/
def tm_init (s : Store) : Store :=
  if s.g_tasks.isNone then
    { g_tasks := none, g_count := 0, g_cap := 0, g_next_id := 1 }
  else s

/-- The loop of `tm_reset` (lines 71-73); the first argument is the number of iterations
left. -/
def tm_reset_loop : Nat → Store → Int → Except Fault Store
  | 0, s, _ => .ok s
  | n + 1, s, i =>
    match s.read i with
    | .error e => .error e
    | .ok t =>
      match s.write i (tm_free_task t) with
      | .error e => .error e
      | .ok s1 => tm_reset_loop n s1 (i + 1)

/-- `tm_reset` (lines 70-79). -/
def tm_reset (s : Store) : Except Fault Store :=
  match tm_reset_loop s.g_count.toNat s 0 with
  | .error e => .error e
  | .ok _ => .ok { g_tasks := none, g_count := 0, g_cap := 0, g_next_id := 1 }

/-- The record `t` that `tm_add_internal` builds (lines 97-113), given the identifier. -/
def new_task (a : Alloc) (tid : Int) (name category : Option String) (priority : Int)
    (deadline start_time : Option String) (duration_mins status : Int) : Task :=
  { id := tid
    name := tm_strdup a.name_ok name
    category := tm_strdup a.category_ok (if category.isSome then category else some "general")
    priority := priority
    deadline := tm_strdup a.deadline_ok (if deadline.isSome then deadline else some "")
    start_time := tm_strdup a.start_time_ok (if start_time.isSome then start_time else some "")
    duration_mins := duration_mins
    status := status }

/-- `tm_add_internal` (lines 81-122). The result is the store after the call and the value
returned. -/
def tm_add_internal (a : Alloc) (s : Store) (id : Int) (name category : Option String)
    (priority : Int) (deadline start_time : Option String) (duration_mins status : Int)
    (force_id : Bool) : Except Fault (Store × Int) :=
  if name = none ∨ name = some "" then .ok (s, -1)
  else
    match tm_ensure_cap a s (wrap (s.g_count + 1)) with
    | .error e => .error e
    | .ok s1 =>
      if s1.g_cap < wrap (s1.g_count + 1) then .ok (s1, -1)
      else
        let tid := if force_id then id else s1.g_next_id
        let s2 : Store :=
          if force_id then
            (if id ≥ s1.g_next_id then { s1 with g_next_id := wrap (id + 1) } else s1)
          else { s1 with g_next_id := wrap (s1.g_next_id + 1) }
        let t := new_task a tid name category priority deadline start_time duration_mins status
        if t.name = none ∨ t.category = none ∨ t.deadline = none ∨ t.start_time = none then
          .ok (s2, -1)
        else
          match s2.write s2.g_count t with
          | .error e => .error e
          | .ok s3 => .ok ({ s3 with g_count := wrap (s3.g_count + 1) }, t.id)

/-- `tm_add_task` (lines 124-134). -/
def tm_add_task (a : Alloc) (s : Store) (name category : Option String) (priority : Int)
    (deadline start_time : Option String) (duration_mins status : Int) :
    Except Fault (Store × Int) :=
  tm_add_internal a s 0 name category priority deadline start_time duration_mins status false

/-- The field updates of `tm_update_task` on the record found (lines 172-186). -/
def update_fields (a : Alloc) (t : Task) (priority : Int) (deadline start_time : Option String)
    (duration_mins status : Int) : Task :=
  let t := if priority ≠ -1 then { t with priority := priority } else t
  let t := if duration_mins ≠ -1 then { t with duration_mins := duration_mins } else t
  let t := if status ≠ -1 then { t with status := status } else t
  let t :=
    match deadline with
    | none => t
    | some d =>
      let t := { t with deadline := tm_strdup a.deadline_ok (some d) }
      if t.deadline = none then { t with deadline := tm_strdup a.deadline_retry_ok (some "") }
      else t
  match start_time with
  | none => t
  | some d =>
    let t := { t with start_time := tm_strdup a.start_time_ok (some d) }
    if t.start_time = none then
      { t with start_time := tm_strdup a.start_time_retry_ok (some "") }
    else t

/-- `tm_update_task` (lines 159-189). -/
def tm_update_task (a : Alloc) (s : Store) (id priority : Int)
    (deadline start_time : Option String) (duration_mins status : Int) :
    Except Fault (Store × Int) :=
  match tm_find_index_by_id s id with
  | .error e => .error e
  | .ok idx =>
    if idx < 0 then .ok (s, 0)
    else
      match s.read idx with
      | .error e => .error e
      | .ok t =>
        match s.write idx (update_fields a t priority deadline start_time duration_mins status) with
        | .error e => .error e
        | .ok s1 => .ok (s1, 1)

/-- `tm_add_task_with_id` (lines 136-157). -/
def tm_add_task_with_id (a : Alloc) (s : Store) (id : Int) (name category : Option String)
    (priority : Int) (deadline start_time : Option String) (duration_mins status : Int) :
    Except Fault (Store × Int) :=
  if id ≤ 0 then .ok (s, -1)
  else
    match tm_find_index_by_id s id with
    | .error e => .error e
    | .ok idx =>
      if idx ≥ 0 then
        match tm_update_task a s id priority deadline start_time duration_mins status with
        | .error e => .error e
        | .ok (s1, _) =>
          .ok (if id ≥ s1.g_next_id then { s1 with g_next_id := wrap (id + 1) } else s1, id)
      else
        tm_add_internal a s id name category priority deadline start_time duration_mins status
          true

/-- `tm_delete_task` (lines 191-202). -/
def tm_delete_task (s : Store) (id : Int) : Except Fault (Store × Int) :=
  match tm_find_index_by_id s id with
  | .error e => .error e
  | .ok idx =>
    if idx < 0 then .ok (s, 0)
    else
      match s.read idx with
      | .error e => .error e
      | .ok t =>
        match s.write idx (tm_free_task t) with
        | .error e => .error e
        | .ok s1 =>
          match s1.read (wrap (s1.g_count - 1)) with
          | .error e => .error e
          | .ok last =>
            match s1.write idx last with
            | .error e => .error e
            | .ok s2 => .ok ({ s2 with g_count := wrap (s2.g_count - 1) }, 1)

/-! ## Calls and reachable states -/

/-- One call of the interface with its arguments. -/
inductive Call where
  | init
  | reset
  | add_task (name category : Option String) (priority : Int)
      (deadline start_time : Option String) (duration_mins status : Int)
  | add_task_with_id (id : Int) (name category : Option String) (priority : Int)
      (deadline start_time : Option String) (duration_mins status : Int)
  | update_task (id priority : Int) (deadline start_time : Option String)
      (duration_mins status : Int)
  | delete_task (id : Int)
deriving DecidableEq, Repr

/-- The effect of one call: the store after it and the value returned (`0` for the two
`void` functions). -/
def step (a : Alloc) (s : Store) : Call → Except Fault (Store × Int)
  | .init => .ok (tm_init s, 0)
  | .reset =>
    match tm_reset s with
    | .error e => .error e
    | .ok s1 => .ok (s1, 0)
  | .add_task n c p d st du stat => tm_add_task a s n c p d st du stat
  | .add_task_with_id id n c p d st du stat => tm_add_task_with_id a s id n c p d st du stat
  | .update_task id p d st du stat => tm_update_task a s id p d st du stat
  | .delete_task id => tm_delete_task s id

/-- The store after a sequence of calls, each with its allocator outcomes. -/
def run (s : Store) : List (Alloc × Call) → Except Fault Store
  | [] => .ok s
  | (a, c) :: rest =>
    match step a s c with
    | .error e => .error e
    | .ok (s1, _) => run s1 rest

/-- The store states that some sequence of completed calls produces from the initial one. -/
def Reachable (s : Store) : Prop :=
  ∃ calls : List (Alloc × Call), run Store.initial calls = .ok s

/-! ## Predicates used in the statements -/

/-- Consistency of the four variables with the block they describe. -/
structure WF (s : Store) : Prop where
  block : ((s.g_tasks.getD []).length : Int) = s.g_cap
  cap_mod : s.g_cap % 16 = 0
  cap_hi : s.g_cap < 2147483648
  count_lo : 0 ≤ s.g_count
  count_hi : s.g_count ≤ s.g_cap
  next_lo : -2147483648 ≤ s.g_next_id
  next_hi : s.g_next_id < 2147483648
  fresh : s.g_tasks = none → s.g_next_id = 1

/-- What `tm_find_index_by_id` returns, on the records. -/
def FindSpec (s : Store) (id : Int) (r : Int) : Prop :=
  (r = -1 ∧ ∀ t ∈ s.records, t.id ≠ id) ∨
  (0 ≤ r ∧ r < s.g_count ∧ (∃ t, s.records[r.toNat]? = some t ∧ t.id = id) ∧
    ∀ j : Nat, (j : Int) < r → ∀ u, s.records[j]? = some u → u.id ≠ id)

/-- The name passes the check of line 92. -/
def valid_name (name : Option String) : Prop := name ≠ none ∧ name ≠ some ""

instance (name : Option String) : Decidable (valid_name name) := by
  unfold valid_name; infer_instance

/-- The four field duplications of `tm_add_internal` succeed. -/
def Alloc.dups_ok (a : Alloc) : Prop :=
  a.name_ok = true ∧ a.category_ok = true ∧ a.deadline_ok = true ∧ a.start_time_ok = true

/-- Room for one more record is obtained: `tm_ensure_cap` returns and the capacity check
of line 95 passes. -/
def Alloc.room (a : Alloc) (s : Store) : Prop :=
  match tm_ensure_cap a s (wrap (s.g_count + 1)) with
  | .ok s1 => wrap (s.g_count + 1) ≤ s1.g_cap
  | .error _ => False

instance (a : Alloc) (s : Store) : Decidable (a.room s) :=
  match h : tm_ensure_cap a s (wrap (s.g_count + 1)) with
  | .ok s1 =>
    if h2 : wrap (s.g_count + 1) ≤ s1.g_cap then isTrue (by simp only [Alloc.room, h]; exact h2)
    else isFalse (by simp only [Alloc.room, h]; exact h2)
  | .error _ => isFalse (by simp only [Alloc.room, h]; exact not_false)

instance (a : Alloc) : Decidable a.dups_ok := by
  unfold Alloc.dups_ok; infer_instance

/-- Allocation succeeds for an append to `s`: room for one more record is obtained and the
four field duplications succeed. -/
def Alloc.succeeds (a : Alloc) (s : Store) : Prop := a.room s ∧ a.dups_ok

instance (a : Alloc) (s : Store) : Decidable (a.succeeds s) := by
  unfold Alloc.succeeds; infer_instance

/-- The identifier `tm_add_internal` gives to the record. -/
def add_id (s : Store) (id : Int) (force_id : Bool) : Int :=
  if force_id then id else s.g_next_id

/-- The counter after `tm_add_internal` has taken the identifier (lines 100-105). -/
def add_next (s : Store) (id : Int) (force_id : Bool) : Int :=
  if force_id then (if id ≥ s.g_next_id then wrap (id + 1) else s.g_next_id)
  else wrap (s.g_next_id + 1)

/-- The result of `tm_add_internal` in a consistent store. -/
def AddSpec (a : Alloc) (s : Store) (id : Int) (n c : Option String) (p : Int)
    (d st : Option String) (du sta : Int) (f : Bool) (s' : Store) (r : Int) : Prop :=
  WF s' ∧ s.g_cap ≤ s'.g_cap ∧
    (((¬ valid_name n ∨ ¬ a.room s ∨ ¬ a.dups_ok) ∧ r = -1 ∧ s'.records = s.records ∧
        s'.g_count = s.g_count ∧
        (s'.g_next_id = s.g_next_id ∨
          (s'.g_next_id = add_next s id f ∧ ¬ a.dups_ok ∧ valid_name n ∧ a.room s))) ∨
     (valid_name n ∧ a.room s ∧ a.dups_ok ∧ r = add_id s id f ∧
        s'.records = s.records ++ [new_task a (add_id s id f) n c p d st du sta] ∧
        s'.g_count = s.g_count + 1 ∧ s'.g_next_id = add_next s id f))

/-- The record with identifier `id` that `tm_find_index_by_id` finds is `t`, at index `i`. -/
def FirstAt (s : Store) (id : Int) (i : Nat) (t : Task) : Prop :=
  s.records[i]? = some t ∧ t.id = id ∧ ∀ j : Nat, j < i → ∀ u, s.records[j]? = some u → u.id ≠ id

/-- The result of `tm_update_task` in a consistent store. -/
def UpdateSpec (a : Alloc) (s : Store) (id p : Int) (d st : Option String) (du sta : Int)
    (s' : Store) (r : Int) : Prop :=
  WF s' ∧ s'.g_count = s.g_count ∧ s'.g_cap = s.g_cap ∧ s'.g_next_id = s.g_next_id ∧
    ((r = 0 ∧ s' = s ∧ ∀ t ∈ s.records, t.id ≠ id) ∨
     (r = 1 ∧ ∃ (i : Nat) (t : Task), FirstAt s id i t ∧
        s'.records = s.records.set i (update_fields a t p d st du sta)))

/-- The records after the record at index `i` has been removed by `tm_delete_task`. -/
def swap_delete (l : List Task) (i : Nat) : List Task :=
  match l.getLast? with
  | none => l
  | some last => (l.set i last).dropLast

/-- The result of `tm_delete_task` in a consistent store. -/
def DeleteSpec (s : Store) (id : Int) (s' : Store) (r : Int) : Prop :=
  WF s' ∧ s'.g_cap = s.g_cap ∧ s'.g_next_id = s.g_next_id ∧
    ((r = 0 ∧ s' = s ∧ ∀ t ∈ s.records, t.id ≠ id) ∨
     (r = 1 ∧ s'.g_count = s.g_count - 1 ∧ ∃ (i : Nat) (t : Task), FirstAt s id i t ∧
        s'.records = swap_delete s.records i))

/-- The counter update of line 152. -/
def advance (s : Store) (id : Int) : Store :=
  if id ≥ s.g_next_id then { s with g_next_id := wrap (id + 1) } else s

/-- The call keeps the identifier counter within the range of `int`: a create is made while
the counter is below `INT_MAX`, an upsert carries an identifier below `INT_MAX`. -/
def Call.in_range (s : Store) : Call → Bool
  | .add_task _ _ _ _ _ _ _ => decide (s.g_next_id < INT_MAX)
  | .add_task_with_id id _ _ _ _ _ _ _ => decide (id < INT_MAX)
  | _ => true

/-- Every call of the sequence keeps the counter within the range of `int` at the state in
which it is made. -/
def runs_in_range (s : Store) : List (Alloc × Call) → Bool
  | [] => true
  | (a, c) :: rest =>
    c.in_range s &&
      match step a s c with
      | .ok (s1, _) => runs_in_range s1 rest
      | .error _ => true

/-- The identifiers stored are distinct, positive and below the counter. -/
structure Inv (s : Store) : Prop where
  wf : WF s
  below : ∀ t ∈ s.records, t.id < s.g_next_id
  nodup : (s.records.map Task.id).Nodup
  pos : ∀ t ∈ s.records, 0 < t.id
  next_pos : 0 < s.g_next_id

/-! ## Concrete stores and call sequences -/

/-- The record `tm_add_internal` stores for a name and an identifier when every other
argument is `NULL` or `0` and every allocation is granted. -/
def plain_task (id : Int) (name : String) : Task :=
  { id := id, name := some name, category := some "general", priority := 0,
    deadline := some "", start_time := some "", duration_mins := 0, status := 0 }

/-- A block of sixteen slots whose first slots hold the given records. -/
def block16 (l : List Task) : Option (List Task) :=
  some (l ++ List.replicate (16 - l.length) Task.blank)

/-- Upsert with only an identifier and a name, every allocation granted. -/
def upsert_call (id : Int) (name : String) : Alloc × Call :=
  (Alloc.granted, .add_task_with_id id (some name) none 0 none none 0 0)

/-- Create with only a name, every allocation granted. -/
def create_call (name : String) : Alloc × Call :=
  (Alloc.granted, .add_task (some name) none 0 none none 0 0)

/-- Four calls after which two records hold identifier 3. -/
def overflow_calls : List (Alloc × Call) :=
  [upsert_call 3 "a", upsert_call 2147483647 "b", upsert_call 2 "c", create_call "d"]

/-- The store after `overflow_calls`. -/
def overflow_state : Store :=
  { g_tasks := block16 [plain_task 3 "a", plain_task 2147483647 "b", plain_task 2 "c",
      plain_task 3 "d"]
    g_count := 4, g_cap := 16, g_next_id := 4 }

/-- The store after an upsert with identifier `INT_MAX` into the initial store. -/
def wrapped_state : Store :=
  { g_tasks := block16 [plain_task 2147483647 "b"]
    g_count := 1, g_cap := 16, g_next_id := -2147483648 }

/-- The store after an upsert with identifier `INT_MAX - 1` into the initial store. -/
def last_id_state : Store :=
  { g_tasks := block16 [plain_task 2147483646 "a"]
    g_count := 1, g_cap := 16, g_next_id := 2147483647 }

/-- The store after a create in `last_id_state`. -/
def last_id_after : Store :=
  { g_tasks := block16 [plain_task 2147483646 "a", plain_task 2147483647 "b"]
    g_count := 2, g_cap := 16, g_next_id := -2147483648 }

/-- The store after a create in `wrapped_state`. -/
def wrapped_after : Store :=
  { g_tasks := block16 [plain_task 2147483647 "b", plain_task (-2147483648) "d"]
    g_count := 2, g_cap := 16, g_next_id := -2147483647 }

/-- A sequence of in-range calls: two creates, a delete, an upsert. -/
def sample_calls : List (Alloc × Call) :=
  [create_call "Write report", create_call "Buy milk", (Alloc.granted, .delete_task 1),
   upsert_call 5 "Imported"]

/-- The store after `sample_calls`. -/
def sample_state : Store :=
  { g_tasks := block16 [plain_task 2 "Buy milk", plain_task 5 "Imported"]
    g_count := 2, g_cap := 16, g_next_id := 6 }

/-- The store after the first two calls of `sample_calls`. -/
def sample_mid : Store :=
  { g_tasks := block16 [plain_task 1 "Write report", plain_task 2 "Buy milk"]
    g_count := 2, g_cap := 16, g_next_id := 3 }

/-- The record stored by the first call of the scenario of the specification. -/
def report_task : Task :=
  { id := 1, name := some "Write report", category := some "", priority := 2,
    deadline := some "2025-01-10", start_time := some "09:00", duration_mins := 60,
    status := 0 }

/-- The store after the first call of the scenario of the specification. -/
def report_state : Store :=
  { g_tasks := block16 [report_task], g_count := 1, g_cap := 16, g_next_id := 2 }

/-- Allocator outcomes in which only the duplication of the name fails. -/
def Alloc.name_fails : Alloc := { Alloc.granted with name_ok := false }

/-- The store after a create whose name duplication fails, from the initial store. -/
def failed_create_state : Store :=
  { g_tasks := block16 [], g_count := 0, g_cap := 16, g_next_id := 2 }

/-- The store after upserts with identifiers 3 and `INT_MAX` into the initial store. -/
def stale_state : Store :=
  { g_tasks := block16 [plain_task 3 "a", plain_task 2147483647 "b"]
    g_count := 2, g_cap := 16, g_next_id := -2147483648 }

/-- The store `stale_state` with the counter at 4. -/
def stale_advanced : Store := { stale_state with g_next_id := 4 }

/-- A sequence of calls that empties the store again: a create and the delete of its
record. -/
def emptied_calls : List (Alloc × Call) :=
  [create_call "Write report", (Alloc.granted, .delete_task 1)]

/-- The store after `emptied_calls`: the block is kept, with the freed record in its first
slot. -/
def emptied_state : Store :=
  { g_tasks := block16 [tm_free_task (plain_task 1 "Write report")]
    g_count := 0, g_cap := 16, g_next_id := 2 }

/-- The text a field of `tm_update_task` holds after the call (lines 176-186): the prior text
when the argument is `NULL`; otherwise the copy of the argument, or the copy of the empty
string when the first duplication fails, or `NULL` when both fail. -/
def updated_text (ok retry_ok : Bool) (prior arg : Option String) : Option String :=
  match arg with
  | none => prior
  | some x => if ok then some x else if retry_ok then some "" else none

/-- The integer updates of `tm_update_task` (lines 172-174). -/
def update_ints (t : Task) (priority duration_mins status : Int) : Task :=
  let t := if priority ≠ -1 then { t with priority := priority } else t
  let t := if duration_mins ≠ -1 then { t with duration_mins := duration_mins } else t
  if status ≠ -1 then { t with status := status } else t

/-- The text updates of `tm_update_task` (lines 176-186). -/
def update_texts (a : Alloc) (t : Task) (deadline start_time : Option String) : Task :=
  let t :=
    match deadline with
    | none => t
    | some d =>
      let t := { t with deadline := tm_strdup a.deadline_ok (some d) }
      if t.deadline = none then { t with deadline := tm_strdup a.deadline_retry_ok (some "") }
      else t
  match start_time with
  | none => t
  | some d =>
    let t := { t with start_time := tm_strdup a.start_time_ok (some d) }
    if t.start_time = none then
      { t with start_time := tm_strdup a.start_time_retry_ok (some "") }
    else t

/-- Allocator outcomes in which only the duplication of the deadline fails. -/
def Alloc.deadline_fails : Alloc := { Alloc.granted with deadline_ok := false }

/-- The first call of the scenario of the specification. -/
def report_call : Alloc × Call :=
  (Alloc.granted, .add_task (some "Write report") (some "") 2 (some "2025-01-10") (some "09:00")
    60 0)

/-- The store `report_state` after an update of its record whose deadline duplication
failed. -/
def report_lost_deadline : Store :=
  { g_tasks := block16 [{ report_task with deadline := some "" }]
    g_count := 1, g_cap := 16, g_next_id := 2 }

/-- The store `overflow_state` after the delete of identifier 3: the last record, which
holds identifier 3 as well, has taken the first slot. -/
def overflow_deleted : Store :=
  { g_tasks := block16 [plain_task 3 "d", plain_task 2147483647 "b", plain_task 2 "c",
      plain_task 3 "d"]
    g_count := 3, g_cap := 16, g_next_id := 4 }

/-- The store `overflow_deleted` after a second delete of identifier 3. -/
def overflow_deleted_twice : Store :=
  { g_tasks := block16 [plain_task 2 "c", plain_task 2147483647 "b", plain_task 2 "c",
      plain_task 3 "d"]
    g_count := 2, g_cap := 16, g_next_id := 4 }

/-- The store after an upsert with identifier 5 into the initial store during which the
duplication of the name fails. -/
def failed_upsert_state : Store :=
  { g_tasks := block16 [], g_count := 0, g_cap := 16, g_next_id := 6 }

/-- The store after a granted upsert with identifier 5 in `failed_upsert_state`. -/
def retried_upsert_state : Store :=
  { g_tasks := block16 [plain_task 5 "a"], g_count := 1, g_cap := 16, g_next_id := 6 }

/-- The record stored by the upsert of the scenario of the specification. -/
def imported_task : Task :=
  { id := 5, name := some "Imported", category := some "x", priority := 3,
    deadline := some "2025-02-01", start_time := some "10:00", duration_mins := 30,
    status := 0 }

/-- The store after the upsert of the scenario of the specification into the initial
store. -/
def imported_state : Store :=
  { g_tasks := block16 [imported_task], g_count := 1, g_cap := 16, g_next_id := 6 }

/-- The store `imported_state` after the same upsert made again while the duplication of
the deadline fails. -/
def imported_lost_deadline : Store :=
  { g_tasks := block16 [{ imported_task with deadline := some "" }]
    g_count := 1, g_cap := 16, g_next_id := 6 }

/-! ## Machine integers and the block -/

theorem wrap_of_range (x : Int) (h1 : -2147483648 ≤ x) (h2 : x < 2147483648) : wrap x = x := by
  unfold wrap; omega

theorem wrap_range (x : Int) : -2147483648 ≤ wrap x ∧ wrap x < 2147483648 := by
  unfold wrap; omega

theorem wrap_double_mod (c : Int) (h : c % 16 = 0) : wrap (c * 2) % 16 = 0 := by
  unfold wrap; omega

theorem WF.of_initial : WF Store.initial := by
  constructor <;> simp [Store.initial]

theorem WF.wrap_count_succ {s : Store} (h : WF s) : wrap (s.g_count + 1) = s.g_count + 1 := by
  have := h.cap_mod; have := h.cap_hi; have := h.count_lo; have := h.count_hi
  apply wrap_of_range <;> omega

theorem WF.wrap_count_pred {s : Store} (h : WF s) : wrap (s.g_count - 1) = s.g_count - 1 := by
  have := h.cap_hi; have := h.count_lo; have := h.count_hi
  apply wrap_of_range <;> omega

theorem read_records {s : Store} (h : WF s) (k : Nat) (hk : (k : Int) < s.g_count) :
    ∃ t, s.read k = .ok t ∧ s.records[k]? = some t := by
  obtain ⟨hb, _, _, _, hc, _⟩ := h
  unfold Store.read Store.records
  cases hg : s.g_tasks with
  | none => simp [hg] at hb; omega
  | some buf =>
    simp [hg] at hb
    have hlen : k < buf.length := by omega
    have hk2 : k < s.g_count.toNat := by omega
    simp [List.getElem?_take, hk2, hlen]

theorem records_length {s : Store} (h : WF s) : (s.records.length : Int) = s.g_count := by
  have := h.block; have := h.count_lo; have := h.count_hi
  unfold Store.records
  rw [List.length_take]
  omega

/-- A write into a slot of the block, seen on the records. -/
theorem write_records {s : Store} (h : WF s) (k : Nat) (t : Task) (hk : (k : Int) < s.g_cap) :
    ∃ s1, s.write k t = .ok s1 ∧ s1.records = s.records.set k t ∧ s1.g_count = s.g_count ∧
      s1.g_cap = s.g_cap ∧ s1.g_next_id = s.g_next_id ∧ WF s1 ∧
      (s1.g_tasks.getD [])[k]? = some t := by
  have hb := h.block
  cases hg : s.g_tasks with
  | none => simp [hg] at hb; omega
  | some buf =>
    simp [hg] at hb
    have hlen : k < buf.length := by omega
    refine ⟨{ s with g_tasks := some (buf.set k t) }, ?_, ?_, rfl, rfl, rfl, ?_, ?_⟩
    · simp [Store.write, hg, hlen]
    · simp [Store.records, hg, List.set_take]
    · obtain ⟨_, h2, h3, h4, h5, h6, h7, h8⟩ := h
      exact ⟨by simpa using hb, h2, h3, h4, h5, h6, h7, by simp⟩
    · simp [hlen]

theorem ensure_cap_loop_spec (need : Int) :
    ∀ (k : Nat) (c r : Int), c % 16 = 0 → -2147483648 ≤ c → c < 2147483648 →
      tm_ensure_cap_loop need k c = .ok r →
      r % 16 = 0 ∧ need ≤ r ∧ r < 2147483648
  | 0, c, r, hm, _, hhi, h => by
    unfold tm_ensure_cap_loop at h
    split at h
    · cases h
    · cases h; exact ⟨hm, by omega, hhi⟩
  | k + 1, c, r, hm, _, hhi, h => by
    unfold tm_ensure_cap_loop at h
    split at h
    · exact ensure_cap_loop_spec need k _ r (wrap_double_mod c hm) (wrap_range _).1
        (wrap_range _).2 h
    · cases h; exact ⟨hm, by omega, hhi⟩

theorem ensure_cap_spec {a : Alloc} {s s1 : Store} {need : Int} (h : WF s)
    (he : tm_ensure_cap a s need = .ok s1) :
    WF s1 ∧ s1.records = s.records ∧ s1.g_count = s.g_count ∧ s1.g_next_id = s.g_next_id ∧
      s.g_cap ≤ s1.g_cap ∧ (s1 = s ∨ (need ≤ s1.g_cap ∧ s1.g_tasks ≠ none)) := by
  unfold tm_ensure_cap at he
  split at he
  · cases he; exact ⟨h, rfl, rfl, rfl, le_refl _, Or.inl rfl⟩
  · rename_i hlt
    split at he
    · cases he
    · rename_i new_cap hloop
      have hstart : (if s.g_cap = 0 then (16 : Int) else wrap (s.g_cap * 2)) % 16 = 0 := by
        split
        · rfl
        · exact wrap_double_mod _ h.cap_mod
      have hlo : -2147483648 ≤ (if s.g_cap = 0 then (16 : Int) else wrap (s.g_cap * 2)) := by
        split
        · omega
        · exact (wrap_range _).1
      have hhi : (if s.g_cap = 0 then (16 : Int) else wrap (s.g_cap * 2)) < 2147483648 := by
        split
        · omega
        · exact (wrap_range _).2
      obtain ⟨hm, hge, hlt2⟩ := ensure_cap_loop_spec need 32 _ new_cap hstart hlo hhi hloop
      split at he
      · cases he
        have hb := h.block
        have hc0 := h.count_lo
        have hc1 := h.count_hi
        have hlen : (s.g_tasks.getD []).length ≤ new_cap.toNat := by omega
        refine ⟨⟨?_, hm, hlt2, hc0, by simp only; omega, h.next_lo, h.next_hi, by simp⟩,
          ?_, rfl, rfl, by simp only; omega, Or.inr ⟨hge, by simp⟩⟩
        · simp [realloc_block, List.length_take]
          omega
        · simp only [Store.records, realloc_block, Option.getD_some]
          rw [List.take_take]
          have hmin : min s.g_count.toNat new_cap.toNat = s.g_count.toNat := by omega
          rw [hmin, List.take_append_of_le_length (by omega)]
      · cases he; exact ⟨h, rfl, rfl, rfl, le_refl _, Or.inl rfl⟩

/-! ## Lookup -/

theorem find_loop_spec {s : Store} (h : WF s) (id : Int) :
    ∀ (n k : Nat), (k : Int) + n = s.g_count →
      (∀ j : Nat, j < k → ∀ u, s.records[j]? = some u → u.id ≠ id) →
      ∃ r, tm_find_index_loop s id n k = .ok r ∧ FindSpec s id r
  | 0, k, hk, hprev => by
    refine ⟨-1, rfl, Or.inl ⟨rfl, ?_⟩⟩
    intro t ht
    obtain ⟨j, hj, rfl⟩ := List.getElem_of_mem ht
    have := records_length h
    exact hprev j (by omega) _ (List.getElem?_eq_getElem hj)
  | n + 1, k, hk, hprev => by
    obtain ⟨t, hr, hrec⟩ := read_records h k (by omega)
    unfold tm_find_index_loop
    simp only [hr]
    by_cases hid : t.id = id
    · simp only [hid, if_true]
      refine ⟨k, rfl, Or.inr ⟨by omega, by omega, ⟨t, by simpa using hrec, hid⟩, ?_⟩⟩
      intro j hj u hu
      exact hprev j (by omega) u hu
    · simp only [hid, if_false]
      have := find_loop_spec h id n (k + 1) (by push_cast; omega) (by
        intro j hj u hu
        by_cases hjk : j = k
        · subst hjk; rw [hrec] at hu; cases hu; exact hid
        · exact hprev j (by omega) u hu)
      simpa using this

theorem find_spec {s : Store} (h : WF s) (id : Int) :
    ∃ r, tm_find_index_by_id s id = .ok r ∧ FindSpec s id r := by
  have hc := h.count_lo
  have := find_loop_spec h id s.g_count.toNat 0 (by omega) (by intro j hj; omega)
  simpa [tm_find_index_by_id] using this

/-! ## `tm_add_internal` -/

theorem strdup_eq_none (ok : Bool) (x : Option String) : tm_strdup ok x = none ↔ ok = false := by
  unfold tm_strdup; cases x <;> cases ok <;> simp

theorem new_task_bad (a : Alloc) (tid : Int) (n c : Option String) (p : Int)
    (d st : Option String) (du sta : Int) :
    ((new_task a tid n c p d st du sta).name = none ∨
      (new_task a tid n c p d st du sta).category = none ∨
      (new_task a tid n c p d st du sta).deadline = none ∨
      (new_task a tid n c p d st du sta).start_time = none) ↔ ¬ a.dups_ok := by
  simp only [new_task, strdup_eq_none, Alloc.dups_ok]
  cases a.name_ok <;> cases a.category_ok <;> cases a.deadline_ok <;> cases a.start_time_ok <;>
    simp

theorem add_internal_cases (a : Alloc) {s : Store} (id : Int) (n c : Option String)
    (p : Int) (d st : Option String) (du sta : Int) (f : Bool) (h : WF s) :
    (∃ e, tm_add_internal a s id n c p d st du sta f = .error e ∧ valid_name n ∧ ¬ a.room s) ∨
    (∃ s' r, tm_add_internal a s id n c p d st du sta f = .ok (s', r) ∧
      AddSpec a s id n c p d st du sta f s' r) := by
  unfold tm_add_internal AddSpec
  by_cases hname : n = none ∨ n = some ""
  · right
    refine ⟨s, -1, by simp only [hname, if_true], h, le_refl _, Or.inl ⟨?_, rfl, rfl, rfl, Or.inl rfl⟩⟩
    left; unfold valid_name; tauto
  · have hvalid : valid_name n := by
      unfold valid_name; exact ⟨fun h1 => hname (Or.inl h1), fun h1 => hname (Or.inr h1)⟩
    simp only [hname, if_false]
    cases hs1 : tm_ensure_cap a s (wrap (s.g_count + 1)) with
    | error e =>
      left
      exact ⟨e, rfl, hvalid, by simp [Alloc.room, hs1]⟩
    | ok s1 =>
      right
      obtain ⟨hwf1, hrec1, hcnt1, hnext1, hcap1, hor⟩ := ensure_cap_spec h hs1
      have hw := hwf1.wrap_count_succ
      simp only
      by_cases hroom : s1.g_cap < wrap (s1.g_count + 1)
      · simp only [hroom, if_true]
        refine ⟨s1, -1, rfl, hwf1, hcap1, Or.inl ⟨?_, rfl, hrec1, hcnt1, Or.inl hnext1⟩⟩
        right; left
        simp only [Alloc.room, hs1]
        rw [hcnt1] at hroom; omega
      · simp only [hroom, if_false]
        have hroom' : a.room s := by
          simp only [Alloc.room, hs1]
          rw [hcnt1] at hroom; omega
        rw [hw] at hroom
        have hnext2 : (if f = true then
              (if id ≥ s1.g_next_id then { s1 with g_next_id := wrap (id + 1) } else s1)
            else { s1 with g_next_id := wrap (s1.g_next_id + 1) } : Store).g_next_id
            = add_next s id f := by
          unfold add_next; rw [← hnext1]
          split
          · split <;> rfl
          · rfl
        generalize hs2 : (if f = true then
              (if id ≥ s1.g_next_id then { s1 with g_next_id := wrap (id + 1) } else s1)
            else { s1 with g_next_id := wrap (s1.g_next_id + 1) } : Store) = s2 at hnext2
        have htasks : s2.g_tasks = s1.g_tasks := by
          subst hs2; split
          · split <;> rfl
          · rfl
        have hcnt2 : s2.g_count = s1.g_count := by
          subst hs2; split
          · split <;> rfl
          · rfl
        have hcap2 : s2.g_cap = s1.g_cap := by
          subst hs2; split
          · split <;> rfl
          · rfl
        have hrec2 : s2.records = s1.records := by
          unfold Store.records; rw [htasks, hcnt2]
        have hwf2 : WF s2 := by
          obtain ⟨h1, h2, h3, h4, h5, h6, h7, h8⟩ := hwf1
          refine ⟨by rw [htasks, hcap2]; exact h1, by rw [hcap2]; exact h2,
            by rw [hcap2]; exact h3, by rw [hcnt2]; exact h4, by rw [hcnt2, hcap2]; exact h5,
            ?_, ?_, ?_⟩
          · rw [hnext2]; unfold add_next
            have := h.next_lo
            split
            · split
              · exact (wrap_range _).1
              · exact this
            · exact (wrap_range _).1
          · rw [hnext2]; unfold add_next
            have := h.next_hi
            split
            · split
              · exact (wrap_range _).2
              · exact this
            · exact (wrap_range _).2
          · intro hnone
            rw [htasks] at hnone
            simp [hnone] at h1
            omega
        have htid : (if f = true then id else s1.g_next_id) = add_id s id f := by
          unfold add_id; rw [hnext1]
        simp only [htid]
        by_cases hbad : ¬ a.dups_ok
        · have hb := (new_task_bad a (add_id s id f) n c p d st du sta).2 hbad
          simp only [hb, if_true]
          exact ⟨s2, -1, rfl, hwf2, by rw [hcap2]; exact hcap1,
            Or.inl ⟨Or.inr (Or.inr hbad), rfl, by rw [hrec2, hrec1], by rw [hcnt2, hcnt1],
              Or.inr ⟨hnext2, hbad, hvalid, hroom'⟩⟩⟩
        · rw [not_not] at hbad
          have hb : ¬ ((new_task a (add_id s id f) n c p d st du sta).name = none ∨
              (new_task a (add_id s id f) n c p d st du sta).category = none ∨
              (new_task a (add_id s id f) n c p d st du sta).deadline = none ∨
              (new_task a (add_id s id f) n c p d st du sta).start_time = none) := by
            rw [new_task_bad, not_not]; exact hbad
          simp only [hb, if_false]
          have hc0 := hwf2.count_lo
          obtain ⟨s3, hw3, hrec3, hcnt3, hcap3, hnext3, hwf3, hget3⟩ :=
            write_records hwf2 s2.g_count.toNat
              (new_task a (add_id s id f) n c p d st du sta) (by omega)
          have hcast : ((s2.g_count.toNat : Nat) : Int) = s2.g_count := by omega
          rw [hcast] at hw3
          simp only [hw3]
          have hw3c : wrap (s3.g_count + 1) = s3.g_count + 1 := hwf3.wrap_count_succ
          refine ⟨_, _, rfl, ?_, by simp only; omega,
            Or.inr ⟨hvalid, hroom', hbad, rfl, ?_, ?_, ?_⟩⟩
          · obtain ⟨h1, h2, h3, h4, h5, h6, h7, h8⟩ := hwf3
            refine ⟨h1, h2, h3, ?_, ?_, h6, h7, h8⟩
            · simp only; omega
            · simp only; omega
          · simp only [Store.records, hw3c]
            have hn : (s3.g_count + 1).toNat = s2.g_count.toNat + 1 := by omega
            rw [hn, List.take_succ, hget3]
            have : List.take s2.g_count.toNat (s3.g_tasks.getD []) = s3.records := by
              unfold Store.records; rw [hcnt3]
            rw [this, hrec3, hrec2, hrec1]
            have hlen := records_length h
            rw [List.set_eq_of_length_le (by omega)]
            rfl
          · simp only [hw3c]; omega
          · simp only; rw [hnext3, hnext2]

/-! ## `tm_update_task`, `tm_delete_task`, `tm_add_task_with_id` -/

theorem find_cases {s : Store} (h : WF s) (id : Int) :
    (tm_find_index_by_id s id = .ok (-1) ∧ ∀ t ∈ s.records, t.id ≠ id) ∨
    (∃ (i : Nat) (t : Task), tm_find_index_by_id s id = .ok (i : Int) ∧ FirstAt s id i t ∧
      (i : Int) < s.g_count) := by
  obtain ⟨r, hr, hs⟩ := find_spec h id
  rcases hs with ⟨rfl, hnot⟩ | ⟨h0, hlt, ⟨t, ht, hid⟩, hfirst⟩
  · exact Or.inl ⟨hr, hnot⟩
  · right
    refine ⟨r.toNat, t, ?_, ⟨ht, hid, ?_⟩, by omega⟩
    · rw [hr]; congr 1; omega
    · intro j hj u hu; exact hfirst j (by omega) u hu

theorem update_cases (a : Alloc) {s : Store} (id p : Int) (d st : Option String)
    (du sta : Int) (h : WF s) :
    ∃ s' r, tm_update_task a s id p d st du sta = .ok (s', r) ∧
      UpdateSpec a s id p d st du sta s' r := by
  unfold tm_update_task UpdateSpec
  rcases find_cases h id with ⟨hf, hnot⟩ | ⟨i, t, hf, hfirst, hlt⟩
  · refine ⟨s, 0, by simp [hf], h, rfl, rfl, rfl, Or.inl ⟨rfl, rfl, hnot⟩⟩
  · obtain ⟨t', hread, hrec⟩ := read_records h i hlt
    have htt : t' = t := by
      have := hfirst.1; rw [hrec] at this; exact Option.some.inj this
    subst htt
    have hcap := h.count_hi
    obtain ⟨s1, hw, hrec1, hcnt1, hcap1, hnext1, hwf1, _⟩ :=
      write_records h i (update_fields a t' p d st du sta) (by omega)
    have hi : ¬ ((i : Int) < 0) := by omega
    refine ⟨s1, 1, by simp only [hf, hi, if_false, hread, hw], hwf1, hcnt1, hcap1, hnext1,
      Or.inr ⟨rfl, i, t', hfirst, hrec1⟩⟩

theorem records_shrink {s : Store} (h : WF s) (hpos : 0 < s.g_count) :
    ({ s with g_count := wrap (s.g_count - 1) } : Store).records = s.records.dropLast ∧
    WF { s with g_count := wrap (s.g_count - 1) } := by
  have hw := h.wrap_count_pred
  have hlen := records_length h
  constructor
  · rw [List.dropLast_eq_take]
    simp only [Store.records, hw, List.take_take]
    congr 1
    have hb := h.block
    have := h.count_hi
    rw [List.length_take]
    omega
  · obtain ⟨h1, h2, h3, h4, h5, h6, h7, h8⟩ := h
    exact ⟨h1, h2, h3, by simp only; omega, by simp only; omega, h6, h7, h8⟩

theorem delete_cases {s : Store} (id : Int) (h : WF s) :
    ∃ s' r, tm_delete_task s id = .ok (s', r) ∧ DeleteSpec s id s' r := by
  unfold tm_delete_task DeleteSpec
  rcases find_cases h id with ⟨hf, hnot⟩ | ⟨i, t, hf, hfirst, hlt⟩
  · refine ⟨s, 0, by simp [hf], h, rfl, rfl, Or.inl ⟨rfl, rfl, hnot⟩⟩
  · obtain ⟨t', hread, hrec⟩ := read_records h i hlt
    have htt : t' = t := by
      have := hfirst.1; rw [hrec] at this; exact Option.some.inj this
    subst htt
    have hcap := h.count_hi
    have hlen := records_length h
    obtain ⟨s1, hw1, hrec1, hcnt1, hcap1, hnext1, hwf1, _⟩ :=
      write_records h i (tm_free_task t') (by omega)
    have hw1c := hwf1.wrap_count_pred
    obtain ⟨last, hreadl, hrecl⟩ := read_records hwf1 (s1.g_count - 1).toNat (by omega)
    have hcast : (((s1.g_count - 1).toNat : Nat) : Int) = s1.g_count - 1 := by omega
    rw [hcast] at hreadl
    obtain ⟨s2, hw2, hrec2, hcnt2, hcap2, hnext2, hwf2, _⟩ :=
      write_records hwf1 i last (by omega)
    have hi : ¬ ((i : Int) < 0) := by omega
    obtain ⟨hshr, hwf3⟩ := records_shrink hwf2 (by omega)
    refine ⟨_, 1, by simp only [hf, hi, if_false, hread, hw1, hw1c, hreadl, hw2], hwf3,
      by show s2.g_cap = s.g_cap; rw [hcap2, hcap1],
      by show s2.g_next_id = s.g_next_id; rw [hnext2, hnext1],
      Or.inr ⟨rfl, ?_, i, t', hfirst, ?_⟩⟩
    · show wrap (s2.g_count - 1) = s.g_count - 1
      rw [hwf2.wrap_count_pred]; omega
    · rw [hshr, hrec2, hrec1, List.set_set]
      rw [hrec1] at hrecl
      have hn : (s1.g_count - 1).toNat = s.records.length - 1 := by omega
      rw [hn] at hrecl
      unfold swap_delete
      have hne : s.records ≠ [] := by
        intro hnil; rw [hnil] at hlen; simp at hlen; omega
      have hlast : s.records.getLast? = some (s.records.getLast hne) :=
        List.getLast?_eq_getLast _ hne
      rw [hlast]
      simp only
      by_cases hil : i = s.records.length - 1
      · subst hil
        rw [List.dropLast_eq_take, List.dropLast_eq_take, List.length_set, List.length_set]
        rw [List.set_take, List.set_take]
        rw [List.set_eq_of_length_le (by rw [List.length_take]; omega),
          List.set_eq_of_length_le (by rw [List.length_take]; omega)]
      · have : last = s.records.getLast hne := by
          rw [List.getElem?_set] at hrecl
          simp only [hil, if_false] at hrecl
          rw [List.getLast_eq_getElem]
          have hlt2 : s.records.length - 1 < s.records.length := by omega
          rw [List.getElem?_eq_getElem hlt2] at hrecl
          exact (Option.some.inj hrecl).symm
        rw [this]

theorem upsert_nonpos (a : Alloc) (s : Store) (id : Int) (n c : Option String) (p : Int)
    (d st : Option String) (du sta : Int) (hid : id ≤ 0) :
    tm_add_task_with_id a s id n c p d st du sta = .ok (s, -1) := by
  simp [tm_add_task_with_id, hid]

theorem upsert_absent (a : Alloc) {s : Store} (id : Int) (n c : Option String) (p : Int)
    (d st : Option String) (du sta : Int) (h : WF s) (hid : 0 < id)
    (hnot : ∀ t ∈ s.records, t.id ≠ id) :
    tm_add_task_with_id a s id n c p d st du sta =
      tm_add_internal a s id n c p d st du sta true := by
  unfold tm_add_task_with_id
  rcases find_cases h id with ⟨hf, _⟩ | ⟨i, t, _, hfirst, _⟩
  · have h1 : ¬ id ≤ 0 := by omega
    simp [hf, h1]
  · exact absurd hfirst.2.1 (hnot t (List.getElem?_mem hfirst.1))

theorem upsert_present (a : Alloc) {s : Store} (id : Int) (n c : Option String) (p : Int)
    (d st : Option String) (du sta : Int) (h : WF s) (hid : 0 < id)
    (hex : ∃ t ∈ s.records, t.id = id) :
    ∃ s1, tm_update_task a s id p d st du sta = .ok (s1, 1) ∧
      UpdateSpec a s id p d st du sta s1 1 ∧
      tm_add_task_with_id a s id n c p d st du sta = .ok (advance s1 id, id) := by
  obtain ⟨s1, r, hu, hspec⟩ := update_cases a id p d st du sta h
  obtain ⟨t, ht, htid⟩ := hex
  have hr : r = 1 := by
    rcases hspec.2.2.2.2 with ⟨_, _, hnot⟩ | ⟨hr, _⟩
    · exact absurd htid (hnot t ht)
    · exact hr
  subst hr
  refine ⟨s1, hu, hspec, ?_⟩
  unfold tm_add_task_with_id advance
  rcases find_cases h id with ⟨_, hnot⟩ | ⟨i, t', hf, _, _⟩
  · exact absurd htid (hnot t ht)
  · have h1 : ¬ id ≤ 0 := by omega
    have h2 : (i : Int) ≥ 0 := by omega
    simp only [h1, if_false, hf, h2, if_true, hu]

/-! ## `tm_reset`, `tm_init` and the consistency of reachable stores -/

theorem reset_loop_ok : ∀ (n : Nat) (s : Store) (k : Nat), WF s → (k : Int) + n = s.g_count →
    ∃ s1, tm_reset_loop n s k = .ok s1
  | 0, s, _, _, _ => ⟨s, rfl⟩
  | n + 1, s, k, h, hk => by
    obtain ⟨t, hr, _⟩ := read_records h k (by omega)
    have := h.count_hi
    obtain ⟨s1, hw, _, hcnt1, _, _, hwf1, _⟩ := write_records h k (tm_free_task t) (by omega)
    obtain ⟨s2, h2⟩ := reset_loop_ok n s1 (k + 1) hwf1 (by push_cast; omega)
    refine ⟨s2, ?_⟩
    unfold tm_reset_loop
    simp only [hr, hw]
    simpa using h2

theorem reset_eq {s : Store} (h : WF s) : tm_reset s = .ok Store.initial := by
  have := h.count_lo
  obtain ⟨s1, h1⟩ := reset_loop_ok s.g_count.toNat s 0 h (by omega)
  unfold tm_reset
  simp only [Nat.cast_zero] at h1
  simp only [h1]
  rfl

theorem init_eq {s : Store} (h : WF s) : tm_init s = s := by
  unfold tm_init
  cases hg : s.g_tasks with
  | some buf => simp
  | none =>
    have hb := h.block
    have := h.count_lo
    have := h.count_hi
    have hn := h.fresh hg
    simp [hg] at hb
    have hc : s.g_count = 0 := by omega
    cases s
    simp_all

theorem step_wf {a : Alloc} {s s' : Store} {c : Call} {r : Int} (h : WF s)
    (hs : step a s c = .ok (s', r)) : WF s' := by
  cases c with
  | init =>
    simp only [step, init_eq h] at hs
    cases hs; exact h
  | reset =>
    simp only [step, reset_eq h] at hs
    cases hs; exact WF.of_initial
  | add_task n c p d st du sta =>
    simp only [step, tm_add_task] at hs
    rcases add_internal_cases a 0 n c p d st du sta false h with ⟨e, he, _⟩ | ⟨s1, r1, he, hsp⟩
    · rw [he] at hs; cases hs
    · rw [he] at hs; cases hs; exact hsp.1
  | add_task_with_id id n c p d st du sta =>
    simp only [step] at hs
    by_cases hid : id ≤ 0
    · rw [upsert_nonpos a s id n c p d st du sta hid] at hs
      cases hs; exact h
    · by_cases hex : ∃ t ∈ s.records, t.id = id
      · obtain ⟨s1, _, hsp, he⟩ := upsert_present a id n c p d st du sta h (by omega) hex
        rw [he] at hs
        cases hs
        obtain ⟨⟨h1, h2, h3, h4, h5, h6, h7, h8⟩, _⟩ := hsp
        unfold advance
        split
        · exact ⟨h1, h2, h3, h4, h5, (wrap_range _).1, (wrap_range _).2, by
            intro hn; simp only at hn
            simp [hn] at h1
            have := hex
            obtain ⟨t, ht, _⟩ := hex
            have hl := records_length h
            have : s.records ≠ [] := List.ne_nil_of_mem ht
            have : 0 < s.records.length := List.length_pos.mpr this
            omega⟩
        · exact ⟨h1, h2, h3, h4, h5, h6, h7, h8⟩
      · rw [upsert_absent a id n c p d st du sta h (by omega) (by
          intro t ht heq; exact hex ⟨t, ht, heq⟩)] at hs
        rcases add_internal_cases a id n c p d st du sta true h with ⟨e, he, _⟩ | ⟨s1, r1, he, hsp⟩
        · rw [he] at hs; cases hs
        · rw [he] at hs; cases hs; exact hsp.1
  | update_task id p d st du sta =>
    simp only [step] at hs
    obtain ⟨s1, r1, he, hsp⟩ := update_cases a id p d st du sta h
    rw [he] at hs; cases hs; exact hsp.1
  | delete_task id =>
    simp only [step] at hs
    obtain ⟨s1, r1, he, hsp⟩ := delete_cases id h
    rw [he] at hs; cases hs; exact hsp.1

theorem run_wf : ∀ (calls : List (Alloc × Call)) (s s' : Store), WF s →
    run s calls = .ok s' → WF s'
  | [], s, s', h, hr => by
    simp only [run] at hr; cases hr; exact h
  | (a, c) :: rest, s, s', h, hr => by
    simp only [run] at hr
    cases hs : step a s c with
    | error e => rw [hs] at hr; cases hr
    | ok x =>
      obtain ⟨s1, r⟩ := x
      rw [hs] at hr
      exact run_wf rest s1 s' (step_wf h hs) hr

theorem Reachable.wf {s : Store} (h : Reachable s) : WF s := by
  obtain ⟨calls, hc⟩ := h
  exact run_wf calls _ s WF.of_initial hc

/-! ## Identifiers while the counter stays in range -/

theorem swap_delete_perm : ∀ (l : List Task) (i : Nat), i < l.length →
    (swap_delete l i).Perm (l.eraseIdx i)
  | [], i, h => by simp at h
  | x :: l, 0, _ => by
    cases hl : l with
    | nil => simp [swap_delete]
    | cons y l2 =>
      have hne : y :: l2 ≠ [] := by simp
      have hlast : (x :: y :: l2).getLast? = some ((y :: l2).getLast hne) := by
        simp [List.getLast?_eq_getLast]
      simp only [swap_delete, hlast, List.set_cons_zero, List.eraseIdx_cons_zero]
      rw [List.dropLast_cons_of_ne_nil hne]
      have h2 := List.dropLast_concat_getLast hne
      conv => rhs; rw [← h2]
      exact (List.perm_append_singleton _ _).symm
  | x :: l, i + 1, h => by
    have hlen : i < l.length := by simpa using h
    have hne : l ≠ [] := by intro hn; subst hn; simp at hlen
    have ih := swap_delete_perm l i hlen
    have hlast : (x :: l).getLast? = l.getLast? := by
      cases l with
      | nil => exact absurd rfl hne
      | cons y l2 => simp [List.getLast?_cons_cons]
    have hl2 : l.getLast? = some (l.getLast hne) := List.getLast?_eq_getLast _ hne
    simp only [swap_delete, hlast, hl2, List.set_cons_succ, List.eraseIdx_cons_succ] at ih ⊢
    have hne2 : l.set i (l.getLast hne) ≠ [] := by
      intro hn
      have := congrArg List.length hn
      simp at this
      exact hne this
    rw [List.dropLast_cons_of_ne_nil hne2]
    exact List.Perm.cons x ih

theorem swap_delete_mem {l : List Task} {i : Nat} (hi : i < l.length) {t : Task}
    (ht : t ∈ swap_delete l i) : t ∈ l :=
  List.mem_of_mem_eraseIdx (((swap_delete_perm l i hi).mem_iff).1 ht)

theorem swap_delete_nodup {l : List Task} {i : Nat} (hi : i < l.length)
    (hn : (l.map Task.id).Nodup) : ((swap_delete l i).map Task.id).Nodup := by
  have hp := (swap_delete_perm l i hi).map Task.id
  rw [hp.nodup_iff]
  exact hn.sublist ((List.eraseIdx_sublist l i).map Task.id)

theorem update_fields_id (a : Alloc) (t : Task) (p : Int) (d st : Option String)
    (du sta : Int) : (update_fields a t p d st du sta).id = t.id := by
  unfold update_fields
  cases d <;> cases st <;> simp only <;> repeat' split
  all_goals rfl

theorem map_id_set {l : List Task} {i : Nat} {t t' : Task} (h : l[i]? = some t)
    (hid : t'.id = t.id) : (l.set i t').map Task.id = l.map Task.id := by
  rw [List.map_set]
  apply List.ext_getElem?
  intro j
  rw [List.getElem?_set]
  split
  · rename_i hij
    subst hij
    simp only [List.length_map, List.getElem?_map, h, Option.map_some']
    have : i < l.length := by
      by_contra hc
      rw [List.getElem?_eq_none (by omega)] at h
      cases h
    simp [this, hid]
  · rfl

theorem Inv.of_initial_store : Inv Store.initial :=
  ⟨WF.of_initial, by simp [Store.initial, Store.records], by simp [Store.initial, Store.records],
    by simp [Store.initial, Store.records], by simp [Store.initial]⟩

theorem Inv.of_same_ids {s s' : Store} (h : Inv s) (hwf : WF s')
    (hids : s'.records.map Task.id = s.records.map Task.id)
    (hnext : s.g_next_id ≤ s'.g_next_id) : Inv s' := by
  have hmem : ∀ t ∈ s'.records, ∃ u ∈ s.records, u.id = t.id := by
    intro t ht
    have : t.id ∈ s.records.map Task.id := by
      rw [← hids]; exact List.mem_map_of_mem _ ht
    exact List.mem_map.1 this
  have hnp := h.next_pos
  refine ⟨hwf, ?_, by rw [hids]; exact h.nodup, ?_, by omega⟩
  · intro t ht
    obtain ⟨u, hu, hid⟩ := hmem t ht
    have := h.below u hu
    omega
  · intro t ht
    obtain ⟨u, hu, hid⟩ := hmem t ht
    have := h.pos u hu
    omega

theorem Inv.append {s s' : Store} {t : Task} (h : Inv s) (hwf : WF s')
    (hrec : s'.records = s.records ++ [t]) (hnew : ∀ u ∈ s.records, u.id ≠ t.id)
    (hnext : s.g_next_id ≤ s'.g_next_id) (hlt : t.id < s'.g_next_id) (hpos : 0 < t.id) :
    Inv s' := by
  have hnp := h.next_pos
  refine ⟨hwf, ?_, ?_, ?_, by omega⟩
  · intro u hu
    rw [hrec, List.mem_append, List.mem_singleton] at hu
    rcases hu with hu | rfl
    · have := h.below u hu; omega
    · exact hlt
  rotate_left
  · intro u hu
    rw [hrec, List.mem_append, List.mem_singleton] at hu
    rcases hu with hu | rfl
    · exact h.pos u hu
    · exact hpos
  · rw [hrec, List.map_append, List.nodup_append]
    refine ⟨h.nodup, by simp, ?_⟩
    intro x hx1 hx2
    simp only [List.map_cons, List.map_nil, List.mem_singleton] at hx2
    obtain ⟨u, hu, hid⟩ := List.mem_map.1 hx1
    exact hnew u hu (by rw [hid, hx2])

theorem advance_records (s : Store) (id : Int) : (advance s id).records = s.records := by
  unfold advance; split <;> rfl

theorem step_inv {a : Alloc} {s s' : Store} {c : Call} {r : Int} (h : Inv s)
    (hin : c.in_range s = true) (hs : step a s c = .ok (s', r)) :
    Inv s' ∧ (c ≠ Call.reset → s.g_next_id ≤ s'.g_next_id) := by
  have hwf' : WF s' := step_wf h.wf hs
  have hlo := h.wf.next_lo
  cases c with
  | init =>
    simp only [step, init_eq h.wf] at hs
    cases hs; exact ⟨h, fun _ => le_refl _⟩
  | reset =>
    simp only [step, reset_eq h.wf] at hs
    cases hs; exact ⟨Inv.of_initial_store, fun hne => absurd rfl hne⟩
  | add_task n c p d st du sta =>
    simp only [Call.in_range, decide_eq_true_eq, INT_MAX] at hin
    simp only [step, tm_add_task] at hs
    rcases add_internal_cases a 0 n c p d st du sta false h.wf with
      ⟨e, he, _⟩ | ⟨s1, r1, he, hsp⟩
    · rw [he] at hs; cases hs
    · rw [he] at hs; cases hs
      have hnx : add_next s 0 false = s.g_next_id + 1 := by
        simp only [add_next]
        exact wrap_of_range _ (by omega) (by omega)
      rcases hsp.2.2 with ⟨_, _, hrec, _, hn⟩ | ⟨_, _, _, _, hrec, _, hn⟩
      · have hle : s.g_next_id ≤ s'.g_next_id := by
          rcases hn with hn | ⟨hn, _⟩
          · omega
          · rw [hn, hnx]; omega
        exact ⟨h.of_same_ids hwf' (by rw [hrec]) hle, fun _ => hle⟩
      · rw [hnx] at hn
        have hnp := h.next_pos
        refine ⟨h.append hwf' hrec ?_ (by omega) ?_ ?_, fun _ => by omega⟩
        · intro u hu
          have := h.below u hu
          simp only [new_task, add_id]
          intro heq; rw [heq] at this; simp at this
        · simp only [new_task, add_id]; simp; omega
        · simp only [new_task, add_id]; simpa using hnp
  | add_task_with_id id n c p d st du sta =>
    simp only [Call.in_range, decide_eq_true_eq, INT_MAX] at hin
    simp only [step] at hs
    by_cases hid : id ≤ 0
    · rw [upsert_nonpos a s id n c p d st du sta hid] at hs
      cases hs; exact ⟨h, fun _ => le_refl _⟩
    · have hw : wrap (id + 1) = id + 1 := wrap_of_range _ (by omega) (by omega)
      by_cases hex : ∃ t ∈ s.records, t.id = id
      · obtain ⟨s1, _, hsp, he⟩ := upsert_present a id n c p d st du sta h.wf (by omega) hex
        rw [he] at hs
        have hinj := Prod.mk.inj (Except.ok.inj hs)
        have hs' := hinj.1
        subst hs'
        obtain ⟨_, _, _, hn1, hcase⟩ := hsp
        have hle : s.g_next_id ≤ (advance s1 id).g_next_id := by
          unfold advance; split
          · simp only [hw]; omega
          · omega
        refine ⟨h.of_same_ids hwf' ?_ hle, fun _ => hle⟩
        rw [advance_records]
        rcases hcase with ⟨_, hss, _⟩ | ⟨_, i, t, hf, hrec⟩
        · rw [hss]
        · rw [hrec]; exact map_id_set hf.1 (update_fields_id _ _ _ _ _ _ _)
      · have hnot : ∀ t ∈ s.records, t.id ≠ id := by
          intro t ht heq; exact hex ⟨t, ht, heq⟩
        rw [upsert_absent a id n c p d st du sta h.wf (by omega) hnot] at hs
        rcases add_internal_cases a id n c p d st du sta true h.wf with
          ⟨e, he, _⟩ | ⟨s1, r1, he, hsp⟩
        · rw [he] at hs; cases hs
        · rw [he] at hs; cases hs
          have hnx : s.g_next_id ≤ add_next s id true ∧ id < add_next s id true := by
            simp only [add_next, if_true]
            split
            · rw [hw]; omega
            · omega
          rcases hsp.2.2 with ⟨_, _, hrec, _, hn⟩ | ⟨_, _, _, _, hrec, _, hn⟩
          · have hle : s.g_next_id ≤ s'.g_next_id := by
              rcases hn with hn | ⟨hn, _⟩
              · omega
              · rw [hn]; exact hnx.1
            exact ⟨h.of_same_ids hwf' (by rw [hrec]) hle, fun _ => hle⟩
          · refine ⟨h.append hwf' hrec ?_ (by rw [hn]; exact hnx.1) ?_ ?_,
              fun _ => by rw [hn]; exact hnx.1⟩
            · intro u hu
              simp only [new_task, add_id, if_true]
              exact hnot u hu
            · simp only [new_task, add_id, if_true]
              rw [hn]; exact hnx.2
            · simp only [new_task, add_id, if_true]
              omega
  | update_task id p d st du sta =>
    simp only [step] at hs
    obtain ⟨s1, r1, he, hsp⟩ := update_cases a id p d st du sta h.wf
    rw [he] at hs; cases hs
    obtain ⟨_, _, _, hn1, hcase⟩ := hsp
    refine ⟨h.of_same_ids hwf' ?_ (by omega), fun _ => by omega⟩
    rcases hcase with ⟨_, hss, _⟩ | ⟨_, i, t, hf, hrec⟩
    · rw [hss]
    · rw [hrec]; exact map_id_set hf.1 (update_fields_id _ _ _ _ _ _ _)
  | delete_task id =>
    simp only [step] at hs
    obtain ⟨s1, r1, he, hsp⟩ := delete_cases id h.wf
    rw [he] at hs; cases hs
    obtain ⟨_, _, hn1, hcase⟩ := hsp
    rcases hcase with ⟨_, hss, _⟩ | ⟨_, _, i, t, hf, hrec⟩
    · rw [hss]; exact ⟨h, fun _ => le_refl _⟩
    · have hi : i < s.records.length := by
        by_contra hc
        have := hf.1
        rw [List.getElem?_eq_none (by omega)] at this
        cases this
      have hnp := h.next_pos
      refine ⟨⟨hwf', ?_, ?_, ?_, by omega⟩, fun _ => by omega⟩
      · intro u hu
        rw [hrec] at hu
        have := h.below u (swap_delete_mem hi hu)
        omega
      · rw [hrec]; exact swap_delete_nodup hi h.nodup
      · intro u hu
        rw [hrec] at hu
        exact h.pos u (swap_delete_mem hi hu)

/-! ## The capacity loop -/

theorem wrap_eq_add_mul (x : Int) : ∃ q : Int, wrap x = x + 4294967296 * q := by
  refine ⟨-((x + 2147483648) / 4294967296), ?_⟩
  unfold wrap
  omega

theorem ensure_cap_loop_zero (need : Int) :
    ∀ k : Nat, tm_ensure_cap_loop need k 0 = tm_ensure_cap_loop need 0 0
  | 0 => rfl
  | k + 1 => by
    have hw : wrap (0 * 2) = 0 := by decide
    simp only [tm_ensure_cap_loop, hw, ensure_cap_loop_zero need k]
    split <;> rfl

theorem ensure_cap_loop_stable (need : Int) :
    ∀ (m : Nat) (c : Int), (4294967296 : Int) ∣ c * 2 ^ m → -2147483648 ≤ c →
      c < 2147483648 → ∀ k : Nat, tm_ensure_cap_loop need (m + k) c = tm_ensure_cap_loop need m c
  | 0, c, hd, hlo, hhi, k => by
    have hc : c = 0 := by
      simp only [pow_zero, mul_one] at hd
      omega
    subst hc
    simpa using ensure_cap_loop_zero need k
  | m + 1, c, hd, _, _, k => by
    have hmk : m + 1 + k = (m + k) + 1 := by omega
    rw [hmk]
    simp only [tm_ensure_cap_loop]
    split
    · obtain ⟨q, hq⟩ := wrap_eq_add_mul (c * 2)
      apply ensure_cap_loop_stable need m _ _ (wrap_range _).1 (wrap_range _).2 k
      rw [hq]
      have : (c * 2 + 4294967296 * q) * 2 ^ m = c * 2 ^ (m + 1) + 4294967296 * (q * 2 ^ m) := by
        ring
      rw [this]
      exact Dvd.dvd.add hd (Dvd.intro _ rfl)
    · rfl

/-- The bound of thirty-two iterations in `tm_ensure_cap` loses nothing: following the loop
for longer gives the same outcome. -/
theorem ensure_cap_loop_fuel (need c : Int) (hlo : -2147483648 ≤ c) (hhi : c < 2147483648)
    (k : Nat) : tm_ensure_cap_loop need (32 + k) c = tm_ensure_cap_loop need 32 c :=
  ensure_cap_loop_stable need 32 c (Dvd.intro_left c (by norm_num)) hlo hhi k

/-- Room for one more record is obtained whenever `realloc` returns a block and the store
holds fewer than 2^30 records. -/
theorem room_of_count_lt {a : Alloc} {s : Store} (h : WF s) (ha : a.realloc_ok = true)
    (hc : s.g_count < 1073741824) : a.room s := by
  have hw := h.wrap_count_succ
  have h1 := h.cap_mod
  have h2 := h.count_lo
  have h3 := h.count_hi
  unfold Alloc.room tm_ensure_cap
  rw [hw]
  by_cases hge : s.g_cap ≥ s.g_count + 1
  · simp only [hge, if_true]
  · simp only [hge, if_false]
    have hstart : ¬ ((if s.g_cap = 0 then (16 : Int) else wrap (s.g_cap * 2)) < s.g_count + 1) := by
      split
      · omega
      · rw [wrap_of_range _ (by omega) (by omega)]; omega
    simp only [tm_ensure_cap_loop, hstart, if_false, ha, if_true]
    omega

/-! ## Sequences of calls -/

theorem run_append : ∀ (pre suf : List (Alloc × Call)) (s s' : Store),
    run s (pre ++ suf) = .ok s' → ∃ sp, run s pre = .ok sp ∧ run sp suf = .ok s'
  | [], suf, s, s', h => ⟨s, rfl, h⟩
  | (a, c) :: pre, suf, s, s', h => by
    simp only [List.cons_append, run] at h ⊢
    cases hs : step a s c with
    | error e => rw [hs] at h; cases h
    | ok x =>
      obtain ⟨s1, r⟩ := x
      rw [hs] at h
      exact run_append pre suf s1 s' h

theorem runs_in_range_append : ∀ (pre suf : List (Alloc × Call)) (s sp : Store),
    runs_in_range s (pre ++ suf) = true → run s pre = .ok sp →
    runs_in_range s pre = true ∧ runs_in_range sp suf = true
  | [], suf, s, sp, h, hr => by
    simp only [run] at hr; cases hr
    exact ⟨rfl, h⟩
  | (a, c) :: pre, suf, s, sp, h, hr => by
    simp only [List.cons_append, runs_in_range, run, Bool.and_eq_true] at h hr ⊢
    cases hs : step a s c with
    | error e => rw [hs] at hr; cases hr
    | ok x =>
      obtain ⟨s1, r⟩ := x
      rw [hs] at h hr
      have := runs_in_range_append pre suf s1 sp h.2 hr
      exact ⟨⟨h.1, this.1⟩, this.2⟩

theorem run_inv : ∀ (calls : List (Alloc × Call)) (s s' : Store), Inv s →
    runs_in_range s calls = true → run s calls = .ok s' → Inv s'
  | [], s, s', h, _, hr => by
    simp only [run] at hr; cases hr; exact h
  | (a, c) :: rest, s, s', h, hin, hr => by
    simp only [runs_in_range, run, Bool.and_eq_true] at hin hr
    cases hs : step a s c with
    | error e => rw [hs] at hr; cases hr
    | ok x =>
      obtain ⟨s1, r⟩ := x
      rw [hs] at hin hr
      exact run_inv rest s1 s' (step_inv h hin.1 hs).1 hin.2 hr

theorem run_counter_mono : ∀ (calls : List (Alloc × Call)) (s s' : Store), Inv s →
    runs_in_range s calls = true → (∀ x ∈ calls, x.2 ≠ Call.reset) → run s calls = .ok s' →
    s.g_next_id ≤ s'.g_next_id
  | [], s, s', _, _, _, hr => by
    simp only [run] at hr; cases hr; exact le_refl _
  | (a, c) :: rest, s, s', h, hin, hnr, hr => by
    simp only [runs_in_range, run, Bool.and_eq_true] at hin hr
    cases hs : step a s c with
    | error e => rw [hs] at hr; cases hr
    | ok x =>
      obtain ⟨s1, r⟩ := x
      rw [hs] at hin hr
      have h1 := step_inv h hin.1 hs
      have h2 := run_counter_mono rest s1 s' h1.1 hin.2
        (fun x hx => hnr x (List.mem_cons_of_mem _ hx)) hr
      have h3 := h1.2 (hnr (a, c) (List.mem_cons_self _ _))
      omega

/-! ## The append path -/

theorem add_internal_success (a : Alloc) {s : Store} (id : Int) {n : Option String}
    (c : Option String) (p : Int) (d st : Option String) (du sta : Int) (f : Bool)
    (h : WF s) (hn : valid_name n) (ha : a.succeeds s) :
    ∃ s', tm_add_internal a s id n c p d st du sta f = .ok (s', add_id s id f) ∧ WF s' ∧
      s'.records = s.records ++ [new_task a (add_id s id f) n c p d st du sta] ∧
      s'.g_count = s.g_count + 1 ∧ s'.g_next_id = add_next s id f := by
  rcases add_internal_cases a id n c p d st du sta f h with ⟨e, _, _, hno⟩ | ⟨s', r, he, hsp⟩
  · exact absurd ha.1 hno
  · obtain ⟨hwf, _, hcase⟩ := hsp
    rcases hcase with ⟨hbad, _⟩ | ⟨_, _, _, hr, hrec, hcnt, hnext⟩
    · rcases hbad with hb | hb | hb
      · exact absurd hn hb
      · exact absurd ha.1 hb
      · exact absurd ha.2 hb
    · subst hr
      exact ⟨s', he, hwf, hrec, hcnt, hnext⟩

theorem new_task_fields {a : Alloc} (ha : a.dups_ok) (tid : Int) {n : Option String}
    (hn : valid_name n) (c : Option String) (p : Int) (d st : Option String) (du sta : Int) :
    new_task a tid n c p d st du sta =
      { id := tid, name := n, category := some (c.getD "general"), priority := p,
        deadline := some (d.getD ""), start_time := some (st.getD ""), duration_mins := du,
        status := sta } := by
  obtain ⟨h1, h2, h3, h4⟩ := ha
  obtain ⟨hn1, _⟩ := hn
  simp only [new_task, h1, h2, h3, h4]
  cases n with
  | none => exact absurd rfl hn1
  | some x => cases c <;> cases d <;> cases st <;> simp [tm_strdup]

/-! ## Fields that an update leaves alone -/

theorem update_fields_name (a : Alloc) (t : Task) (p : Int) (d st : Option String)
    (du sta : Int) : (update_fields a t p d st du sta).name = t.name := by
  unfold update_fields
  cases d <;> cases st <;> simp only <;> repeat' split
  all_goals rfl

theorem update_fields_category (a : Alloc) (t : Task) (p : Int) (d st : Option String)
    (du sta : Int) : (update_fields a t p d st du sta).category = t.category := by
  unfold update_fields
  cases d <;> cases st <;> simp only <;> repeat' split
  all_goals rfl

theorem map_set_same {β : Type} (f : Task → β) {l : List Task} {i : Nat} {t t' : Task}
    (h : l[i]? = some t) (hf : f t' = f t) : (l.set i t').map f = l.map f := by
  rw [List.map_set]
  apply List.ext_getElem?
  intro j
  rw [List.getElem?_set]
  split
  · rename_i hij
    subst hij
    have : i < l.length := by
      by_contra hc
      rw [List.getElem?_eq_none (by omega)] at h
      cases h
    have hget : l[i] = t := by
      rw [List.getElem?_eq_getElem this] at h
      exact Option.some.inj h
    simp [this, hf, hget]
  · rfl

/-! ## C1 -/

/-- C1, as stated, fails: after four calls with every allocation granted (upserts with
identifiers 3, `INT_MAX` and 2, then a create) two stored records hold identifier 3. -/
theorem C1_counterexample :
    run Store.initial overflow_calls = .ok overflow_state ∧
      overflow_state.records.map Task.id = [3, 2147483647, 2, 3] ∧
      ¬ (overflow_state.records.map Task.id).Nodup :=
  ⟨rfl, by decide, by decide⟩

/-- C1, amended: in every store state reached from the initial store by a sequence of calls
none of which takes the counter past `INT_MAX`, no two stored records have the same id. -/
theorem C1_ids_unique_without_overflow (calls : List (Alloc × Call)) (s : Store)
    (hin : runs_in_range Store.initial calls = true)
    (hr : run Store.initial calls = .ok s) :
    (s.records.map Task.id).Nodup :=
  (run_inv calls Store.initial s Inv.of_initial_store hin hr).nodup

/-- C1, amended, on the calls of `sample_calls`. -/
theorem C1_ids_unique_without_overflow_witness :
    runs_in_range Store.initial sample_calls = true ∧
      run Store.initial sample_calls = .ok sample_state ∧
      (sample_state.records.map Task.id).Nodup :=
  ⟨by decide, rfl, C1_ids_unique_without_overflow sample_calls sample_state (by decide) rfl⟩

/-! ## C2 -/

/-- C2, as stated, fails: one upsert with identifier `INT_MAX` into the initial store (no
reset involved) leaves that identifier stored and the counter at `INT_MIN`, below it. -/
theorem C2_counterexample :
    run Store.initial [upsert_call 2147483647 "b"] = .ok wrapped_state ∧
      wrapped_state.records.map Task.id = [2147483647] ∧
      wrapped_state.g_next_id = -2147483648 ∧
      ¬ ∀ t ∈ wrapped_state.records, t.id < wrapped_state.g_next_id :=
  ⟨rfl, by decide, rfl, by decide⟩

/-- C2, amended: along every sequence of calls that contains no reset and in which no call
takes the counter past `INT_MAX`, the counter after the sequence is strictly greater than
every id stored after any initial part of the sequence (the whole sequence included); so a
create that follows and succeeds returns an id that none of those records holds. -/
theorem C2_counter_exceeds_history (pre suf : List (Alloc × Call)) (sp s : Store)
    (hnr : ∀ x ∈ pre ++ suf, x.2 ≠ Call.reset)
    (hin : runs_in_range Store.initial (pre ++ suf) = true)
    (hp : run Store.initial pre = .ok sp)
    (hs : run Store.initial (pre ++ suf) = .ok s) :
    (∀ t ∈ sp.records, t.id < s.g_next_id) ∧
      ∀ (a : Alloc) (n c : Option String) (p : Int) (d st : Option String) (du sta : Int)
        (s' : Store) (r : Int), valid_name n → a.succeeds s →
        tm_add_task a s n c p d st du sta = .ok (s', r) → ∀ t ∈ sp.records, t.id ≠ r := by
  obtain ⟨sp', hp', hsuf⟩ := run_append pre suf Store.initial s hs
  rw [hp] at hp'
  cases hp'
  obtain ⟨hin1, hin2⟩ := runs_in_range_append pre suf Store.initial sp hin hp
  have hinv := run_inv pre Store.initial sp Inv.of_initial_store hin1 hp
  have hmono := run_counter_mono suf sp s hinv hin2
    (fun x hx => hnr x (List.mem_append_right _ hx)) hsuf
  have hbelow : ∀ t ∈ sp.records, t.id < s.g_next_id := by
    intro t ht
    have := hinv.below t ht
    omega
  refine ⟨hbelow, ?_⟩
  intro a n c p d st du sta s' r hn ha he t ht
  have hwf : WF s := run_wf _ _ s WF.of_initial hs
  obtain ⟨s2, he2, _⟩ := add_internal_success a 0 c p d st du sta false hwf hn ha
  simp only [tm_add_task] at he
  rw [he2] at he
  have hr := (Prod.mk.inj (Except.ok.inj he)).2
  simp only [add_id, Bool.false_eq_true, if_false] at hr
  have := hbelow t ht
  omega

/-- C2, amended, on `sample_calls` split after its second call: identifier 1, stored then
and deleted by the third call, is below the final counter. -/
theorem C2_counter_exceeds_history_witness :
    (∀ x ∈ sample_calls.take 2 ++ sample_calls.drop 2, x.2 ≠ Call.reset) ∧
      runs_in_range Store.initial (sample_calls.take 2 ++ sample_calls.drop 2) = true ∧
      run Store.initial (sample_calls.take 2) = .ok sample_mid ∧
      run Store.initial (sample_calls.take 2 ++ sample_calls.drop 2) = .ok sample_state ∧
      ((∀ t ∈ sample_mid.records, t.id < sample_state.g_next_id) ∧
        ∀ (a : Alloc) (n c : Option String) (p : Int) (d st : Option String) (du sta : Int)
          (s' : Store) (r : Int), valid_name n → a.succeeds sample_state →
          tm_add_task a sample_state n c p d st du sta = .ok (s', r) →
          ∀ t ∈ sample_mid.records, t.id ≠ r) :=
  ⟨by decide, by decide, rfl, rfl,
    C2_counter_exceeds_history (sample_calls.take 2) (sample_calls.drop 2)
      sample_mid sample_state (by decide) (by decide) rfl rfl⟩

/-! ## C3 -/

/-- C3, as stated, fails: in the store reached by one upsert with identifier `INT_MAX - 1`
the counter is `INT_MAX`; a create there returns `INT_MAX` and leaves the counter at
`INT_MIN`, not at the previous value plus one. -/
theorem C3_counterexample :
    run Store.initial [upsert_call 2147483646 "a"] = .ok last_id_state ∧
      Alloc.granted.succeeds last_id_state ∧
      tm_add_task Alloc.granted last_id_state (some "b") none 0 none none 0 0 =
        .ok (last_id_after, 2147483647) ∧
      last_id_state.g_next_id = 2147483647 ∧ last_id_after.g_next_id = -2147483648 ∧
      last_id_after.g_next_id ≠ last_id_state.g_next_id + 1 :=
  ⟨rfl, by decide, rfl, rfl, rfl, by decide⟩

/-- C3, amended: for every reachable store state whose counter is below `INT_MAX` and every
call of `tm_add_task` with a non-empty name (allocation succeeding), the returned id is the
counter before the call, the counter afterwards is that value plus one, the record count
grows by one, the new record is the last element and carries the returned id and the
supplied name, priority, duration_mins and status, and the previous records are unchanged
at their positions. -/
theorem C3_create_postcondition (a : Alloc) (s : Store) (n c : Option String) (p : Int)
    (d st : Option String) (du sta : Int) (hr : Reachable s) (hn : valid_name n)
    (ha : a.succeeds s) (hc : s.g_next_id < INT_MAX) :
    ∃ s' t, tm_add_task a s n c p d st du sta = .ok (s', s.g_next_id) ∧
      s'.g_next_id = s.g_next_id + 1 ∧ s'.g_count = s.g_count + 1 ∧
      s'.records = s.records ++ [t] ∧ s'.records.length = s.records.length + 1 ∧
      t.id = s.g_next_id ∧ t.name = n ∧ t.priority = p ∧ t.duration_mins = du ∧
      t.status = sta := by
  obtain ⟨s', he, _, hrec, hcnt, hnext⟩ :=
    add_internal_success a 0 c p d st du sta false hr.wf hn ha
  have hlo := hr.wf.next_lo
  simp only [INT_MAX] at hc
  simp only [add_id, add_next, Bool.false_eq_true, if_false] at he hrec hnext
  rw [wrap_of_range _ (by omega) (by omega)] at hnext
  refine ⟨s', _, he, hnext, hcnt, hrec, by rw [hrec]; simp, ?_⟩
  rw [new_task_fields ha.2 _ hn]
  exact ⟨rfl, rfl, rfl, rfl, rfl⟩

/-- C3, amended, on the first call of the scenario of the specification. -/
theorem C3_create_postcondition_witness :
    Reachable Store.initial ∧ valid_name (some "Write report") ∧
      Alloc.granted.succeeds Store.initial ∧ Store.initial.g_next_id < INT_MAX ∧
      ∃ s' t, tm_add_task Alloc.granted Store.initial (some "Write report") (some "") 2
          (some "2025-01-10") (some "09:00") 60 0 = .ok (s', Store.initial.g_next_id) ∧
        s'.g_next_id = Store.initial.g_next_id + 1 ∧
        s'.g_count = Store.initial.g_count + 1 ∧
        s'.records = Store.initial.records ++ [t] ∧
        s'.records.length = Store.initial.records.length + 1 ∧
        t.id = Store.initial.g_next_id ∧ t.name = some "Write report" ∧ t.priority = 2 ∧
        t.duration_mins = 60 ∧ t.status = 0 :=
  ⟨⟨[], rfl⟩, by decide, by decide, by decide,
    C3_create_postcondition Alloc.granted Store.initial (some "Write report") (some "") 2
      (some "2025-01-10") (some "09:00") 60 0 ⟨[], rfl⟩ (by decide) (by decide) (by decide)⟩

/-! ## C4 -/

/-- C4, as stated, fails: the first call of the scenario of the specification, a create
with the empty string as category, stores the empty string as category, not "general". -/
theorem C4_counterexample :
    tm_add_task Alloc.granted Store.initial (some "Write report") (some "") 2
        (some "2025-01-10") (some "09:00") 60 0 = .ok (report_state, 1) ∧
      report_state.records.map Task.category = [some ""] ∧
      report_state.records.map Task.category ≠ [some "general"] :=
  ⟨rfl, by decide, by decide⟩

/-- C4, amended: for every successful create, and every upsert that inserts a new record, an
absent (NULL) category is stored as "general", an absent deadline or start_time is stored as
the empty string, and any supplied text, the empty string included, is stored verbatim. -/
theorem C4_defaults_at_creation (a : Alloc) (s : Store) (id : Int) (n c : Option String)
    (p : Int) (d st : Option String) (du sta : Int) (hr : Reachable s) (hn : valid_name n)
    (ha : a.succeeds s) :
    (∃ s' r t, tm_add_task a s n c p d st du sta = .ok (s', r) ∧
      s'.records = s.records ++ [t] ∧ t.category = some (c.getD "general") ∧
      t.deadline = some (d.getD "") ∧ t.start_time = some (st.getD "")) ∧
    (0 < id → (∀ u ∈ s.records, u.id ≠ id) →
      ∃ s' r t, tm_add_task_with_id a s id n c p d st du sta = .ok (s', r) ∧
        s'.records = s.records ++ [t] ∧ t.category = some (c.getD "general") ∧
        t.deadline = some (d.getD "") ∧ t.start_time = some (st.getD "")) := by
  constructor
  · obtain ⟨s', he, _, hrec, _, _⟩ :=
      add_internal_success a 0 c p d st du sta false hr.wf hn ha
    refine ⟨s', _, _, he, hrec, ?_⟩
    rw [new_task_fields ha.2 _ hn]
    exact ⟨rfl, rfl, rfl⟩
  · intro hid habs
    obtain ⟨s', he, _, hrec, _, _⟩ :=
      add_internal_success a id c p d st du sta true hr.wf hn ha
    rw [← upsert_absent a id n c p d st du sta hr.wf hid habs] at he
    refine ⟨s', _, _, he, hrec, ?_⟩
    rw [new_task_fields ha.2 _ hn]
    exact ⟨rfl, rfl, rfl⟩

/-- C4, amended, on a create and an upsert with an absent category, an empty deadline and
an absent start_time. -/
theorem C4_defaults_at_creation_witness :
    Reachable Store.initial ∧ valid_name (some "Buy milk") ∧
      Alloc.granted.succeeds Store.initial ∧
      ((∃ s' r t, tm_add_task Alloc.granted Store.initial (some "Buy milk") none 1 (some "")
          none 0 0 = .ok (s', r) ∧
        s'.records = Store.initial.records ++ [t] ∧
        t.category = some ((none : Option String).getD "general") ∧
        t.deadline = some ((some "" : Option String).getD "") ∧
        t.start_time = some ((none : Option String).getD "")) ∧
      ((0 : Int) < 5 → (∀ u ∈ Store.initial.records, u.id ≠ 5) →
        ∃ s' r t, tm_add_task_with_id Alloc.granted Store.initial 5 (some "Buy milk") none 1
            (some "") none 0 0 = .ok (s', r) ∧
          s'.records = Store.initial.records ++ [t] ∧
          t.category = some ((none : Option String).getD "general") ∧
          t.deadline = some ((some "" : Option String).getD "") ∧
          t.start_time = some ((none : Option String).getD ""))) :=
  ⟨⟨[], rfl⟩, by decide, by decide,
    C4_defaults_at_creation Alloc.granted Store.initial 5 (some "Buy milk") none 1 (some "")
      none 0 0 ⟨[], rfl⟩ (by decide) (by decide)⟩

/-! ## C5 -/

/-- C5, as stated, fails: in the store reached by one upsert with identifier `INT_MAX` a
create with a non-empty name returns `INT_MIN`, which is neither -1 nor positive. -/
theorem C5_counterexample :
    run Store.initial [upsert_call 2147483647 "b"] = .ok wrapped_state ∧
      Alloc.granted.succeeds wrapped_state ∧
      tm_add_task Alloc.granted wrapped_state (some "d") none 0 none none 0 0 =
        .ok (wrapped_after, -2147483648) ∧
      ¬ ((0 : Int) < -2147483648) :=
  ⟨rfl, by decide, rfl, by decide⟩

/-- C5, amended: for every reachable store state whose counter is positive and all arguments
(allocation succeeding), `tm_add_task` returns -1 if and only if the name is absent or the
empty string; otherwise it returns a strictly positive identifier. -/
theorem C5_create_fails_on_empty_name (a : Alloc) (s : Store) (n c : Option String)
    (p : Int) (d st : Option String) (du sta : Int) (hr : Reachable s) (ha : a.succeeds s)
    (hpos : 0 < s.g_next_id) :
    ∃ s' r, tm_add_task a s n c p d st du sta = .ok (s', r) ∧
      (r = -1 ↔ (n = none ∨ n = some "")) ∧ (¬ (n = none ∨ n = some "") → 0 < r) := by
  by_cases hn : n = none ∨ n = some ""
  · refine ⟨s, -1, ?_, by simp [hn], fun h => absurd hn h⟩
    simp only [tm_add_task, tm_add_internal, hn, if_true]
  · have hv : valid_name n := ⟨fun h => hn (Or.inl h), fun h => hn (Or.inr h)⟩
    obtain ⟨s', he, _, _, _, _⟩ := add_internal_success a 0 c p d st du sta false hr.wf hv ha
    simp only [add_id, Bool.false_eq_true, if_false] at he
    refine ⟨s', s.g_next_id, he, ?_, fun _ => hpos⟩
    constructor
    · intro h; omega
    · intro h; exact absurd h hn

/-- C5, amended, on a create with the empty string as name in the store after
`sample_calls`. -/
theorem C5_create_fails_on_empty_name_witness :
    Reachable sample_state ∧ Alloc.granted.succeeds sample_state ∧
      0 < sample_state.g_next_id ∧
      ∃ s' r, tm_add_task Alloc.granted sample_state (some "") none 0 none none 0 0 =
          .ok (s', r) ∧
        (r = -1 ↔ ((some "" : Option String) = none ∨ (some "" : Option String) = some "")) ∧
        (¬ ((some "" : Option String) = none ∨ (some "" : Option String) = some "") →
          0 < r) :=
  ⟨⟨sample_calls, rfl⟩, by decide, by decide,
    C5_create_fails_on_empty_name Alloc.granted sample_state (some "") none 0 none none 0 0
      ⟨sample_calls, rfl⟩ (by decide) (by decide)⟩

/-! ## C6 -/

/-- C6, the code at the failing input: a create with a non-empty name into the initial store
during which the duplication of the name fails returns -1 and leaves no record, but the
counter has gone from 1 to 2. -/
theorem C6_failed_create_moves_counter :
    tm_add_task Alloc.name_fails Store.initial (some "a") none 0 none none 0 0 =
        .ok (failed_create_state, -1) ∧
      failed_create_state.records = Store.initial.records ∧
      Store.initial.g_next_id = 1 ∧ failed_create_state.g_next_id = 2 :=
  ⟨rfl, by decide, rfl, rfl⟩

/-! ## C7 -/

/-- C7, as stated, fails: an upsert with identifier `INT_MAX` into the initial store returns
the identifier and appends the record, but leaves the counter at `INT_MIN`, not at the
maximum of the previous counter and the identifier plus one. -/
theorem C7_counterexample :
    Alloc.granted.succeeds Store.initial ∧
      tm_add_task_with_id Alloc.granted Store.initial 2147483647 (some "b") none 0 none none
        0 0 = .ok (wrapped_state, 2147483647) ∧
      wrapped_state.g_next_id = -2147483648 ∧
      wrapped_state.g_next_id ≠ max Store.initial.g_next_id (2147483647 + 1) :=
  ⟨by decide, rfl, rfl, by decide⟩

/-- C7, amended: for every reachable store state, every positive id below `INT_MAX` not held
by any stored record, and every non-empty name (allocation succeeding), `tm_add_task_with_id`
returns id, appends as last element one record that is the record create would append with
its id replaced by the supplied id, leaves the previous records unchanged, and sets the
counter to the maximum of the previous counter and id + 1. -/
theorem C7_upsert_absent (a : Alloc) (s : Store) (id : Int) (n c : Option String) (p : Int)
    (d st : Option String) (du sta : Int) (hr : Reachable s) (hid : 0 < id)
    (hlt : id < INT_MAX) (habs : ∀ u ∈ s.records, u.id ≠ id) (hn : valid_name n)
    (ha : a.succeeds s) :
    ∃ s' t, tm_add_task_with_id a s id n c p d st du sta = .ok (s', id) ∧
      s'.records = s.records ++ [t] ∧ t.id = id ∧
      (∃ sc rc tc, tm_add_task a s n c p d st du sta = .ok (sc, rc) ∧
        sc.records = s.records ++ [tc] ∧ t = { tc with id := id }) ∧
      s'.g_next_id = max s.g_next_id (id + 1) := by
  obtain ⟨s', he, _, hrec, _, hnext⟩ :=
    add_internal_success a id c p d st du sta true hr.wf hn ha
  obtain ⟨sc, hec, _, hrecc, _, _⟩ :=
    add_internal_success a 0 c p d st du sta false hr.wf hn ha
  rw [← upsert_absent a id n c p d st du sta hr.wf hid habs] at he
  simp only [add_id, if_true] at he hrec
  simp only [INT_MAX] at hlt
  refine ⟨s', _, he, hrec, rfl, ⟨sc, _, _, hec, hrecc, rfl⟩, ?_⟩
  rw [hnext]
  simp only [add_next, if_true]
  split
  · rw [wrap_of_range _ (by omega) (by omega)]; omega
  · omega

/-- C7, amended, on the upsert of the scenario of the specification. -/
theorem C7_upsert_absent_witness :
    Reachable Store.initial ∧ (0 : Int) < 5 ∧ (5 : Int) < INT_MAX ∧
      (∀ u ∈ Store.initial.records, u.id ≠ 5) ∧
      valid_name (some "Imported") ∧ Alloc.granted.succeeds Store.initial ∧
      ∃ s' t, tm_add_task_with_id Alloc.granted Store.initial 5 (some "Imported") (some "x") 3
          (some "2025-02-01") (some "10:00") 30 0 = .ok (s', 5) ∧
        s'.records = Store.initial.records ++ [t] ∧ t.id = 5 ∧
        (∃ sc rc tc, tm_add_task Alloc.granted Store.initial (some "Imported") (some "x") 3
            (some "2025-02-01") (some "10:00") 30 0 = .ok (sc, rc) ∧
          sc.records = Store.initial.records ++ [tc] ∧ t = { tc with id := 5 }) ∧
        s'.g_next_id = max Store.initial.g_next_id (5 + 1) :=
  ⟨⟨[], rfl⟩, by decide, by decide, by decide, by decide, by decide,
    C7_upsert_absent Alloc.granted Store.initial 5 (some "Imported") (some "x") 3
      (some "2025-02-01") (some "10:00") 30 0 ⟨[], rfl⟩ (by decide) (by decide) (by decide)
      (by decide) (by decide)⟩

/-! ## C8 -/

/-- C8, as stated, fails at `k = INT_MAX`: the upsert into the initial store returns
`INT_MAX`, and the create that follows returns `INT_MIN`, not `k + 1`. -/
theorem C8_counterexample :
    tm_add_task_with_id Alloc.granted Store.initial 2147483647 (some "b") none 0 none none
        0 0 = .ok (wrapped_state, 2147483647) ∧
      tm_add_task Alloc.granted wrapped_state (some "d") none 0 none none 0 0 =
        .ok (wrapped_after, -2147483648) ∧
      (-2147483648 : Int) ≠ 2147483647 + 1 :=
  ⟨rfl, rfl, by decide⟩

/-- C8, amended: for every positive identifier k below `INT_MAX` and non-empty names
(allocation succeeding), an upsert with identifier k into the initial store returns k, and
the create that follows returns k + 1. -/
theorem C8_upsert_then_create (a1 a2 : Alloc) (k : Int) (n1 c1 : Option String) (p1 : Int)
    (d1 st1 : Option String) (du1 sta1 : Int) (n2 c2 : Option String) (p2 : Int)
    (d2 st2 : Option String) (du2 sta2 : Int) (hk : 0 < k) (hlt : k < INT_MAX)
    (hn1 : valid_name n1) (hn2 : valid_name n2) (ha1 : a1.succeeds Store.initial)
    (ha2 : a2.dups_ok) :
    ∃ s1 s2, tm_add_task_with_id a1 Store.initial k n1 c1 p1 d1 st1 du1 sta1 = .ok (s1, k) ∧
      a2.succeeds s1 ∧ tm_add_task a2 s1 n2 c2 p2 d2 st2 du2 sta2 = .ok (s2, k + 1) := by
  have hwf := WF.of_initial
  obtain ⟨s1, he, hwf1, _, hcnt, hnext⟩ :=
    add_internal_success a1 k c1 p1 d1 st1 du1 sta1 true hwf hn1 ha1
  rw [← upsert_absent a1 k n1 c1 p1 d1 st1 du1 sta1 hwf hk
    (by simp [Store.initial, Store.records])] at he
  simp only [INT_MAX] at hlt
  simp only [add_id, add_next, if_true, Store.initial] at he hnext hcnt
  have hge : k ≥ 1 := by omega
  simp only [hge, if_true] at hnext
  rw [wrap_of_range _ (by omega) (by omega)] at hnext
  have hroom : a2.room s1 := by
    have h1 := hwf1.cap_mod
    have h2 := hwf1.count_hi
    have h3 := hwf1.wrap_count_succ
    have hcap : s1.g_cap ≥ wrap (s1.g_count + 1) := by rw [h3]; omega
    simp only [Alloc.room, tm_ensure_cap, hcap, if_true]
  obtain ⟨s2, he2, _, _, _, _⟩ :=
    add_internal_success a2 0 c2 p2 d2 st2 du2 sta2 false hwf1 hn2 ⟨hroom, ha2⟩
  simp only [add_id, Bool.false_eq_true, if_false, hnext] at he2
  exact ⟨s1, s2, he, ⟨hroom, ha2⟩, he2⟩

/-- C8, amended, on the example of the specification, `k = 5`. -/
theorem C8_upsert_then_create_witness :
    (0 : Int) < 5 ∧ (5 : Int) < INT_MAX ∧ valid_name (some "Imported") ∧
      valid_name (some "Next") ∧ Alloc.granted.succeeds Store.initial ∧
      Alloc.granted.dups_ok ∧
      ∃ s1 s2, tm_add_task_with_id Alloc.granted Store.initial 5 (some "Imported") (some "x") 3
          (some "2025-02-01") (some "10:00") 30 0 = .ok (s1, 5) ∧
        Alloc.granted.succeeds s1 ∧
        tm_add_task Alloc.granted s1 (some "Next") none 0 none none 0 0 = .ok (s2, 5 + 1) :=
  ⟨by decide, by decide, by decide, by decide, by decide, by decide,
    C8_upsert_then_create Alloc.granted Alloc.granted 5 (some "Imported") (some "x") 3
      (some "2025-02-01") (some "10:00") 30 0 (some "Next") none 0 none none 0 0 (by decide)
      (by decide) (by decide) (by decide) (by decide) (by decide)⟩

/-! ## C9 -/

/-- C9, as stated, fails: in the store reached by upserts with identifiers 3 and `INT_MAX`
the counter is `INT_MIN`; an upsert with the stored identifier 3 then moves the counter to 4,
while `tm_update_task` with the same field arguments leaves it where it is. And in the store
reached by an upsert with identifier `INT_MAX` and a create, the stored identifier `INT_MIN`
is not positive: an upsert with it returns -1, not the identifier. -/
theorem C9_counterexample :
    run Store.initial [upsert_call 3 "a", upsert_call 2147483647 "b"] = .ok stale_state ∧
      stale_state.records.map Task.id = [3, 2147483647] ∧
      tm_update_task Alloc.granted stale_state 3 (-1) none none (-1) (-1) =
        .ok (stale_state, 1) ∧
      tm_add_task_with_id Alloc.granted stale_state 3 (some "a") none (-1) none none (-1) (-1) =
        .ok (stale_advanced, 3) ∧
      stale_advanced ≠ stale_state ∧
      run Store.initial [upsert_call 2147483647 "b", create_call "d"] = .ok wrapped_after ∧
      wrapped_after.records.map Task.id = [2147483647, -2147483648] ∧
      tm_add_task_with_id Alloc.granted wrapped_after (-2147483648) (some "d") none (-1) none
        none (-1) (-1) = .ok (wrapped_after, -1) :=
  ⟨rfl, by decide, rfl, rfl, by decide, rfl, by decide, rfl⟩

/-- C9, amended: for every reachable store state and every positive id that is held by a
stored record and is below the counter, `tm_add_task_with_id` returns id and leaves the store
in exactly the state that `tm_update_task` with the same id, priority, deadline, start_time,
duration_mins and status produces, for every name and category; the names and categories
of the records are unchanged and no record is added. -/
theorem C9_upsert_existing_is_update (a : Alloc) (s : Store) (id : Int)
    (n c : Option String) (p : Int) (d st : Option String) (du sta : Int)
    (hr : Reachable s) (hex : ∃ t ∈ s.records, t.id = id) (hid : 0 < id)
    (hlt : id < s.g_next_id) :
    ∃ s1, tm_update_task a s id p d st du sta = .ok (s1, 1) ∧
      tm_add_task_with_id a s id n c p d st du sta = .ok (s1, id) ∧
      s1.records.map Task.name = s.records.map Task.name ∧
      s1.records.map Task.category = s.records.map Task.category ∧
      s1.records.length = s.records.length ∧ s1.g_count = s.g_count := by
  obtain ⟨s1, hu, hsp, he⟩ := upsert_present a id n c p d st du sta hr.wf hid hex
  obtain ⟨_, hcnt, _, hnext, hcase⟩ := hsp
  have hadv : advance s1 id = s1 := by
    unfold advance
    have : ¬ id ≥ s1.g_next_id := by omega
    simp only [this, if_false]
  rw [hadv] at he
  refine ⟨s1, hu, he, ?_⟩
  rcases hcase with ⟨h0, _⟩ | ⟨_, i, t, hf, hrec⟩
  · omega
  · refine ⟨?_, ?_, ?_, hcnt⟩
    · rw [hrec]; exact map_set_same Task.name hf.1 (update_fields_name _ _ _ _ _ _ _)
    · rw [hrec]; exact map_set_same Task.category hf.1 (update_fields_category _ _ _ _ _ _ _)
    · rw [hrec, List.length_set]

/-- C9, amended, on an upsert with the stored identifier 5, an absent name and another
category in the store after `sample_calls`. -/
theorem C9_upsert_existing_is_update_witness :
    Reachable sample_state ∧ (∃ t ∈ sample_state.records, t.id = 5) ∧ (0 : Int) < 5 ∧
      (5 : Int) < sample_state.g_next_id ∧
      ∃ s1, tm_update_task Alloc.granted sample_state 5 7 (some "2025-03-01") none (-1) 1 =
          .ok (s1, 1) ∧
        tm_add_task_with_id Alloc.granted sample_state 5 none (some "renamed") 7
          (some "2025-03-01") none (-1) 1 = .ok (s1, 5) ∧
        s1.records.map Task.name = sample_state.records.map Task.name ∧
        s1.records.map Task.category = sample_state.records.map Task.category ∧
        s1.records.length = sample_state.records.length ∧ s1.g_count = sample_state.g_count :=
  ⟨⟨sample_calls, rfl⟩, by decide, by decide, by decide,
    C9_upsert_existing_is_update Alloc.granted sample_state 5 none (some "renamed") 7
      (some "2025-03-01") none (-1) 1 ⟨sample_calls, rfl⟩ (by decide) (by decide) (by decide)⟩

/-! ## C10 -/

/-- C10: for every reachable store state and all arguments (allocation succeeding),
`tm_add_task_with_id` returns -1 if and only if id <= 0, or no stored record has that id and
the name is absent or the empty string; in every other case it returns the supplied id. -/
theorem C10_upsert_result (a : Alloc) (s : Store) (id : Int) (n c : Option String) (p : Int)
    (d st : Option String) (du sta : Int) (hr : Reachable s) (ha : a.succeeds s) :
    ∃ s' r, tm_add_task_with_id a s id n c p d st du sta = .ok (s', r) ∧
      (r = -1 ↔ (id ≤ 0 ∨ ((∀ t ∈ s.records, t.id ≠ id) ∧ (n = none ∨ n = some "")))) ∧
      (¬ (id ≤ 0 ∨ ((∀ t ∈ s.records, t.id ≠ id) ∧ (n = none ∨ n = some ""))) → r = id) := by
  by_cases hid : id ≤ 0
  · exact ⟨s, -1, upsert_nonpos a s id n c p d st du sta hid, by simp [hid],
      fun h => absurd (Or.inl hid) h⟩
  · by_cases hex : ∃ t ∈ s.records, t.id = id
    · obtain ⟨s1, _, _, he⟩ := upsert_present a id n c p d st du sta hr.wf (by omega) hex
      refine ⟨_, id, he, ?_, fun _ => rfl⟩
      constructor
      · intro h; omega
      · rintro (h | ⟨h, _⟩)
        · exact absurd h hid
        · obtain ⟨t, ht, htid⟩ := hex
          exact absurd htid (h t ht)
    · have habs : ∀ t ∈ s.records, t.id ≠ id := fun t ht heq => hex ⟨t, ht, heq⟩
      rw [upsert_absent a id n c p d st du sta hr.wf (by omega) habs]
      by_cases hn : n = none ∨ n = some ""
      · refine ⟨s, -1, by simp only [tm_add_internal, hn, if_true], ?_, ?_⟩
        · exact ⟨fun _ => Or.inr ⟨habs, hn⟩, fun _ => rfl⟩
        · intro h; exact absurd (Or.inr ⟨habs, hn⟩) h
      · have hv : valid_name n := ⟨fun h => hn (Or.inl h), fun h => hn (Or.inr h)⟩
        obtain ⟨s', he, _, _, _, _⟩ :=
          add_internal_success a id c p d st du sta true hr.wf hv ha
        simp only [add_id, if_true] at he
        refine ⟨s', id, he, ?_, fun _ => rfl⟩
        constructor
        · intro h; omega
        · rintro (h | ⟨_, h⟩)
          · exact absurd h hid
          · exact absurd h hn

/-- C10, on an upsert with the absent identifier 7 and an absent name in the store after
`sample_calls`. -/
theorem C10_upsert_result_witness :
    Reachable sample_state ∧ Alloc.granted.succeeds sample_state ∧
      ∃ s' r, tm_add_task_with_id Alloc.granted sample_state 7 none none 0 none none 0 0 =
          .ok (s', r) ∧
        (r = -1 ↔ ((7 : Int) ≤ 0 ∨ ((∀ t ∈ sample_state.records, t.id ≠ 7) ∧
          ((none : Option String) = none ∨ (none : Option String) = some "")))) ∧
        (¬ ((7 : Int) ≤ 0 ∨ ((∀ t ∈ sample_state.records, t.id ≠ 7) ∧
          ((none : Option String) = none ∨ (none : Option String) = some ""))) → r = 7) :=
  ⟨⟨sample_calls, rfl⟩, by decide,
    C10_upsert_result Alloc.granted sample_state 7 none none 0 none none 0 0
      ⟨sample_calls, rfl⟩ (by decide)⟩

/-! ## Lemmas for the update, delete and fault statements -/

theorem FirstAt.unique {s : Store} {id : Int} {i j : Nat} {t u : Task}
    (h1 : FirstAt s id i t) (h2 : FirstAt s id j u) : i = j ∧ t = u := by
  have hij : i = j := by
    rcases Nat.lt_trichotomy i j with h | h | h
    · exact absurd h1.2.1 (h2.2.2 i h t h1.1)
    · exact h
    · exact absurd h2.2.1 (h1.2.2 j h u h2.1)
  subst hij
  have := h1.1
  rw [h2.1] at this
  exact ⟨rfl, (Option.some.inj this).symm⟩

theorem FirstAt.lt_length {s : Store} {id : Int} {i : Nat} {t : Task}
    (h : FirstAt s id i t) : i < s.records.length := by
  by_contra hc
  have := h.1
  rw [List.getElem?_eq_none (by omega)] at this
  cases this

theorem swap_delete_length (l : List Task) (i : Nat) :
    (swap_delete l i).length = l.length - 1 := by
  unfold swap_delete
  cases h : l.getLast? with
  | none =>
    have : l = [] := List.getLast?_eq_none_iff.1 h
    subst this; rfl
  | some last => simp

theorem swap_delete_getElem? (l : List Task) (i j : Nat) :
    (swap_delete l i)[j]? =
      if j < l.length - 1 then (if i = j then l[l.length - 1]? else l[j]?) else none := by
  unfold swap_delete
  cases h : l.getLast? with
  | none =>
    have : l = [] := List.getLast?_eq_none_iff.1 h
    subst this; simp
  | some last =>
    have hlast : l[l.length - 1]? = some last := by
      rw [← List.getLast?_eq_getElem?]; exact h
    simp only [List.getElem?_dropLast, List.length_set, List.getElem?_set, hlast]
    split
    · rename_i hj
      split
      · rename_i hij
        have : i < l.length := by omega
        simp [this]
      · rfl
    · rfl

theorem update_fields_split (a : Alloc) (t : Task) (p : Int) (d st : Option String)
    (du sta : Int) :
    update_fields a t p d st du sta = update_texts a (update_ints t p du sta) d st := rfl

theorem update_ints_fields (t : Task) (p du sta : Int) :
    (update_ints t p du sta).priority = (if p = -1 then t.priority else p) ∧
    (update_ints t p du sta).duration_mins = (if du = -1 then t.duration_mins else du) ∧
    (update_ints t p du sta).status = (if sta = -1 then t.status else sta) ∧
    (update_ints t p du sta).deadline = t.deadline ∧
    (update_ints t p du sta).start_time = t.start_time := by
  by_cases hp : p = -1 <;> by_cases hdu : du = -1 <;> by_cases hsta : sta = -1 <;>
    simp [update_ints, hp, hdu, hsta]

theorem update_texts_fields (a : Alloc) (t : Task) (d st : Option String) :
    (update_texts a t d st).priority = t.priority ∧
    (update_texts a t d st).duration_mins = t.duration_mins ∧
    (update_texts a t d st).status = t.status ∧
    (update_texts a t d st).deadline =
      updated_text a.deadline_ok a.deadline_retry_ok t.deadline d ∧
    (update_texts a t d st).start_time =
      updated_text a.start_time_ok a.start_time_retry_ok t.start_time st := by
  obtain ⟨_, _, _, _, dok, sok, dre, sre⟩ := a
  cases d <;> cases st <;> cases dok <;> cases dre <;> cases sok <;> cases sre <;>
    simp [update_texts, updated_text, tm_strdup]

theorem update_fields_values (a : Alloc) (t : Task) (p : Int) (d st : Option String)
    (du sta : Int) :
    (update_fields a t p d st du sta).priority = (if p = -1 then t.priority else p) ∧
    (update_fields a t p d st du sta).duration_mins = (if du = -1 then t.duration_mins else du) ∧
    (update_fields a t p d st du sta).status = (if sta = -1 then t.status else sta) ∧
    (update_fields a t p d st du sta).deadline =
      updated_text a.deadline_ok a.deadline_retry_ok t.deadline d ∧
    (update_fields a t p d st du sta).start_time =
      updated_text a.start_time_ok a.start_time_retry_ok t.start_time st := by
  rw [update_fields_split]
  obtain ⟨h1, h2, h3, h4, h5⟩ := update_texts_fields a (update_ints t p du sta) d st
  obtain ⟨g1, g2, g3, g4, g5⟩ := update_ints_fields t p du sta
  exact ⟨by rw [h1, g1], by rw [h2, g2], by rw [h3, g3], by rw [h4, g4], by rw [h5, g5]⟩

theorem update_fields_keep (a : Alloc) (t : Task) :
    update_fields a t (-1) none none (-1) (-1) = t := by
  simp [update_fields]

theorem write_same {s : Store} {k : Int} {t : Task} (h : s.read k = .ok t) :
    s.write k t = .ok s := by
  unfold Store.read at h
  unfold Store.write
  cases hg : s.g_tasks with
  | none => rw [hg] at h; cases h
  | some buf =>
    rw [hg] at h
    by_cases hk : 0 ≤ k
    · simp only [hk, if_true] at h
      cases hb : buf[k.toNat]? with
      | none => rw [hb] at h; cases h
      | some u =>
        rw [hb] at h
        have hu : u = t := Except.ok.inj h
        subst hu
        have hlen : k.toNat < buf.length := by
          by_contra hc
          rw [List.getElem?_eq_none (by omega)] at hb
          cases hb
        have hset : buf.set k.toNat u = buf := by
          have := map_set_same (fun x => x) hb (rfl : (fun x : Task => x) u = (fun x => x) u)
          simpa using this
        simp only [hk, hlen, and_self, if_true, hset]
        cases s
        simp_all
    · simp only [hk, if_false] at h
      cases h

theorem update_keep (a : Alloc) {s : Store} {id : Int} {i : Nat} {t : Task} (h : WF s)
    (hf : FirstAt s id i t) : tm_update_task a s id (-1) none none (-1) (-1) = .ok (s, 1) := by
  unfold tm_update_task
  rcases find_cases h id with ⟨_, hnot⟩ | ⟨i', t', hfi, hf', hlt⟩
  · exact absurd hf.2.1 (hnot t (List.getElem?_mem hf.1))
  · obtain ⟨t'', hread, _⟩ := read_records h i' hlt
    have hi : ¬ ((i' : Int) < 0) := by omega
    simp only [hfi, hi, if_false, hread, update_fields_keep, write_same hread]

theorem ensure_cap_loop_error (need : Int) :
    ∀ (k : Nat) (c : Int) (e : Fault), tm_ensure_cap_loop need k c = .error e → e = .diverges
  | 0, c, e, h => by
    unfold tm_ensure_cap_loop at h
    split at h
    · exact (Except.error.inj h).symm
    · cases h
  | k + 1, c, e, h => by
    unfold tm_ensure_cap_loop at h
    split at h
    · exact ensure_cap_loop_error need k _ e h
    · cases h

theorem ensure_cap_error {a : Alloc} {s : Store} {need : Int} {e : Fault}
    (h : tm_ensure_cap a s need = .error e) : e = .diverges := by
  unfold tm_ensure_cap at h
  split at h
  · cases h
  · split at h
    · rename_i e' hloop
      have := ensure_cap_loop_error need 32 _ e' hloop
      rw [← Except.error.inj h]; exact this
    · split at h <;> cases h

theorem add_internal_error {a : Alloc} {s : Store} {id : Int} {n c : Option String} {p : Int}
    {d st : Option String} {du sta : Int} {f : Bool} {e : Fault} (h : WF s)
    (he : tm_add_internal a s id n c p d st du sta f = .error e) :
    tm_ensure_cap a s (wrap (s.g_count + 1)) = .error e := by
  rcases add_internal_cases a id n c p d st du sta f h with ⟨e', _, hv, hno⟩ | ⟨s', r, hok, _⟩
  · have hname : ¬ (n = none ∨ n = some "") := fun hc => hc.elim hv.1 hv.2
    unfold tm_add_internal at he
    simp only [hname, if_false] at he
    cases hs1 : tm_ensure_cap a s (wrap (s.g_count + 1)) with
    | error e2 =>
      rw [hs1] at he
      exact congrArg _ (Except.error.inj he)
    | ok s1 =>
      rw [hs1] at he
      obtain ⟨_, _, hcnt, _⟩ := ensure_cap_spec h hs1
      have hlt : s1.g_cap < wrap (s1.g_count + 1) := by
        simp only [Alloc.room, hs1] at hno
        rw [hcnt]; omega
      simp only [hlt, if_true] at he
      cases he
  · rw [hok] at he; cases he

theorem ensure_cap_returns (a : Alloc) {s : Store} (h : WF s) (hc : s.g_count < 1073741824) :
    ∃ s1, tm_ensure_cap a s (wrap (s.g_count + 1)) = .ok s1 := by
  have hw := h.wrap_count_succ
  have h1 := h.cap_mod
  have h2 := h.count_lo
  have h3 := h.count_hi
  unfold tm_ensure_cap
  rw [hw]
  by_cases hge : s.g_cap ≥ s.g_count + 1
  · exact ⟨s, by simp only [hge, if_true]⟩
  · have hstart :
        ¬ ((if s.g_cap = 0 then (16 : Int) else wrap (s.g_cap * 2)) < s.g_count + 1) := by
      split
      · omega
      · rw [wrap_of_range _ (by omega) (by omega)]; omega
    simp only [hge, if_false, tm_ensure_cap_loop, hstart]
    split
    · exact ⟨_, rfl⟩
    · exact ⟨_, rfl⟩

theorem ensure_cap_success {a : Alloc} {s s1 : Store} {need : Int} (h : WF s)
    (he : tm_ensure_cap a s need = .ok s1)
    (hs : s.g_cap ≥ need ∨ a.realloc_ok = true) :
    need ≤ s1.g_cap ∧ s1.records = s.records := by
  obtain ⟨_, hrec, _, _, _, _⟩ := ensure_cap_spec h he
  refine ⟨?_, hrec⟩
  unfold tm_ensure_cap at he
  split at he
  · rename_i hge
    cases he; exact hge
  · rename_i hlt
    have hok : a.realloc_ok = true := hs.resolve_left hlt
    split at he
    · cases he
    · rename_i new_cap hloop
      simp only [hok, if_true] at he
      cases he
      have hstart : (if s.g_cap = 0 then (16 : Int) else wrap (s.g_cap * 2)) % 16 = 0 := by
        split
        · rfl
        · exact wrap_double_mod _ h.cap_mod
      have hlo : -2147483648 ≤ (if s.g_cap = 0 then (16 : Int) else wrap (s.g_cap * 2)) := by
        split
        · omega
        · exact (wrap_range _).1
      have hhi : (if s.g_cap = 0 then (16 : Int) else wrap (s.g_cap * 2)) < 2147483648 := by
        split
        · omega
        · exact (wrap_range _).2
      exact (ensure_cap_loop_spec need 32 _ new_cap hstart hlo hhi hloop).2.1

theorem step_error {a : Alloc} {s : Store} {c : Call} {e : Fault} (h : WF s)
    (hs : step a s c = .error e) : e = .diverges := by
  cases c with
  | init => simp only [step] at hs; cases hs
  | reset =>
    simp only [step, reset_eq h] at hs
    cases hs
  | add_task n c p d st du sta =>
    simp only [step, tm_add_task] at hs
    exact ensure_cap_error (add_internal_error h hs)
  | add_task_with_id id n c p d st du sta =>
    simp only [step] at hs
    by_cases hid : id ≤ 0
    · rw [upsert_nonpos a s id n c p d st du sta hid] at hs
      cases hs
    · by_cases hex : ∃ t ∈ s.records, t.id = id
      · obtain ⟨s1, _, _, he⟩ := upsert_present a id n c p d st du sta h (by omega) hex
        rw [he] at hs
        cases hs
      · rw [upsert_absent a id n c p d st du sta h (by omega) (by
          intro t ht heq; exact hex ⟨t, ht, heq⟩)] at hs
        exact ensure_cap_error (add_internal_error h hs)
  | update_task id p d st du sta =>
    simp only [step] at hs
    obtain ⟨s1, r1, he, _⟩ := update_cases a id p d st du sta h
    rw [he] at hs; cases hs
  | delete_task id =>
    simp only [step] at hs
    obtain ⟨s1, r1, he, _⟩ := delete_cases id h
    rw [he] at hs; cases hs

theorem step_returns (a : Alloc) {s : Store} (c : Call) (h : WF s)
    (hc : s.g_count < 1073741824) : ∃ s' r, step a s c = .ok (s', r) := by
  cases hs : step a s c with
  | ok x => exact ⟨x.1, x.2, rfl⟩
  | error e =>
    exfalso
    obtain ⟨s1, h1⟩ := ensure_cap_returns a h hc
    cases c with
    | init => simp only [step] at hs; cases hs
    | reset => simp only [step, reset_eq h] at hs; cases hs
    | add_task n c p d st du sta =>
      simp only [step, tm_add_task] at hs
      rw [add_internal_error h hs] at h1; cases h1
    | add_task_with_id id n c p d st du sta =>
      simp only [step] at hs
      by_cases hid : id ≤ 0
      · rw [upsert_nonpos a s id n c p d st du sta hid] at hs
        cases hs
      · by_cases hex : ∃ t ∈ s.records, t.id = id
        · obtain ⟨s1, _, _, he⟩ := upsert_present a id n c p d st du sta h (by omega) hex
          rw [he] at hs
          cases hs
        · rw [upsert_absent a id n c p d st du sta h (by omega) (by
            intro t ht heq; exact hex ⟨t, ht, heq⟩)] at hs
          rw [add_internal_error h hs] at h1; cases h1
    | update_task id p d st du sta =>
      simp only [step] at hs
      obtain ⟨s1, r1, he, _⟩ := update_cases a id p d st du sta h
      rw [he] at hs; cases hs
    | delete_task id =>
      simp only [step] at hs
      obtain ⟨s1, r1, he, _⟩ := delete_cases id h
      rw [he] at hs; cases hs

theorem perm_cons_eraseIdx : ∀ (l : List Task) (i : Nat) (t : Task), l[i]? = some t →
    l.Perm (t :: l.eraseIdx i)
  | [], i, t, h => by simp at h
  | x :: l, 0, t, h => by
    simp only [List.getElem?_cons_zero, Option.some.injEq] at h
    subst h
    simp
  | x :: l, i + 1, t, h => by
    simp only [List.getElem?_cons_succ] at h
    have ih := perm_cons_eraseIdx l i t h
    simp only [List.eraseIdx_cons_succ]
    exact (List.Perm.cons x ih).trans (List.Perm.swap t x _)

theorem swap_delete_perm_cons {l : List Task} {i : Nat} {t : Task} (h : l[i]? = some t) :
    l.Perm (t :: swap_delete l i) := by
  have hi : i < l.length := by
    by_contra hc
    rw [List.getElem?_eq_none (by omega)] at h
    cases h
  exact (perm_cons_eraseIdx l i t h).trans (List.Perm.cons t (swap_delete_perm l i hi).symm)

theorem step_names {a : Alloc} {s s' : Store} {c : Call} {r : Int} (h : WF s)
    (hn : ∀ t ∈ s.records, valid_name t.name) (hs : step a s c = .ok (s', r)) :
    ∀ t ∈ s'.records, valid_name t.name := by
  have hadd : ∀ (id : Int) (n c : Option String) (p : Int) (d st : Option String)
      (du sta : Int) (f : Bool) (s1 : Store) (r1 : Int),
      tm_add_internal a s id n c p d st du sta f = .ok (s1, r1) →
      ∀ t ∈ s1.records, valid_name t.name := by
    intro id n c p d st du sta f s1 r1 he
    rcases add_internal_cases a id n c p d st du sta f h with ⟨e, he', _⟩ | ⟨s2, r2, he', hsp⟩
    · rw [he'] at he; cases he
    · rw [he'] at he
      obtain ⟨h1, h2⟩ := Prod.mk.inj (Except.ok.inj he)
      subst h1
      rcases hsp.2.2 with ⟨_, _, hrec, _⟩ | ⟨hv, _, hd, _, hrec, _⟩
      · rw [hrec]; exact hn
      · intro t ht
        rw [hrec, List.mem_append, List.mem_singleton] at ht
        rcases ht with ht | rfl
        · exact hn t ht
        · rw [new_task_fields hd _ hv]; exact hv
  have hupd : ∀ (id p : Int) (d st : Option String) (du sta : Int) (s1 : Store) (r1 : Int),
      tm_update_task a s id p d st du sta = .ok (s1, r1) →
      ∀ t ∈ s1.records, valid_name t.name := by
    intro id p d st du sta s1 r1 he
    obtain ⟨s2, r2, he', hsp⟩ := update_cases a id p d st du sta h
    rw [he'] at he
    obtain ⟨h1, h2⟩ := Prod.mk.inj (Except.ok.inj he)
    subst h1
    rcases hsp.2.2.2.2 with ⟨_, hss, _⟩ | ⟨_, i, t, hf, hrec⟩
    · rw [hss]; exact hn
    · intro u hu
      rw [hrec] at hu
      rcases List.mem_or_eq_of_mem_set hu with hu | rfl
      · exact hn u hu
      · rw [update_fields_name]; exact hn t (List.getElem?_mem hf.1)
  cases c with
  | init =>
    simp only [step, init_eq h] at hs
    cases hs; exact hn
  | reset =>
    simp only [step, reset_eq h] at hs
    cases hs
    intro t ht
    simp [Store.initial, Store.records] at ht
  | add_task n c p d st du sta =>
    simp only [step, tm_add_task] at hs
    exact hadd _ _ _ _ _ _ _ _ _ _ _ hs
  | add_task_with_id id n c p d st du sta =>
    simp only [step] at hs
    by_cases hid : id ≤ 0
    · rw [upsert_nonpos a s id n c p d st du sta hid] at hs
      cases hs; exact hn
    · by_cases hex : ∃ t ∈ s.records, t.id = id
      · obtain ⟨s1, hu, _, he⟩ := upsert_present a id n c p d st du sta h (by omega) hex
        rw [he] at hs
        have h1 := (Prod.mk.inj (Except.ok.inj hs)).1
        subst h1
        rw [advance_records]
        exact hupd _ _ _ _ _ _ _ _ hu
      · rw [upsert_absent a id n c p d st du sta h (by omega) (by
          intro t ht heq; exact hex ⟨t, ht, heq⟩)] at hs
        exact hadd _ _ _ _ _ _ _ _ _ _ _ hs
  | update_task id p d st du sta =>
    simp only [step] at hs
    exact hupd _ _ _ _ _ _ _ _ hs
  | delete_task id =>
    simp only [step] at hs
    obtain ⟨s1, r1, he, hsp⟩ := delete_cases id h
    rw [he] at hs; cases hs
    rcases hsp.2.2.2 with ⟨_, hss, _⟩ | ⟨_, _, i, t, hf, hrec⟩
    · rw [hss]; exact hn
    · intro u hu
      rw [hrec] at hu
      exact hn u (swap_delete_mem hf.lt_length hu)

theorem run_names : ∀ (calls : List (Alloc × Call)) (s s' : Store), WF s →
    (∀ t ∈ s.records, valid_name t.name) → run s calls = .ok s' →
    ∀ t ∈ s'.records, valid_name t.name
  | [], s, s', _, hn, hr => by
    simp only [run] at hr; cases hr; exact hn
  | (a, c) :: rest, s, s', h, hn, hr => by
    simp only [run] at hr
    cases hs : step a s c with
    | error e => rw [hs] at hr; cases hr
    | ok x =>
      obtain ⟨s1, r⟩ := x
      rw [hs] at hr
      exact run_names rest s1 s' (step_wf h hs) (step_names h hn hs) hr

theorem set_same {l : List Task} {i : Nat} {t : Task} (h : l[i]? = some t) :
    l.set i t = l := by
  have := map_set_same (fun x => x) h (rfl : (fun x : Task => x) t = (fun x => x) t)
  simpa using this

theorem firstAt_of_set {s s1 : Store} {id : Int} {i : Nat} {t t' : Task}
    (hf : FirstAt s id i t) (hrec : s1.records = s.records.set i t') (hid : t'.id = id) :
    FirstAt s1 id i t' := by
  have hi := hf.lt_length
  refine ⟨?_, hid, ?_⟩
  · rw [hrec, List.getElem?_set_self hi]
  · intro j hj u hu
    rw [hrec, List.getElem?_set_ne (by omega)] at hu
    exact hf.2.2 j hj u hu

theorem firstAt_of_append {s s1 : Store} {id : Int} {t : Task}
    (hnot : ∀ u ∈ s.records, u.id ≠ id) (hrec : s1.records = s.records ++ [t])
    (hid : t.id = id) : FirstAt s1 id s.records.length t := by
  refine ⟨?_, hid, ?_⟩
  · rw [hrec]; simp
  · intro j hj u hu
    rw [hrec, List.getElem?_append_left hj] at hu
    exact hnot u (List.getElem?_mem hu)

theorem updated_text_idem (ok retry_ok : Bool) (prior arg : Option String) :
    updated_text ok retry_ok (updated_text ok retry_ok prior arg) arg =
      updated_text ok retry_ok prior arg := by
  cases arg <;> rfl

theorem update_fields_idem (a : Alloc) (t : Task) (p : Int) (d st : Option String)
    (du sta : Int) :
    update_fields a (update_fields a t p d st du sta) p d st du sta =
      update_fields a t p d st du sta := by
  obtain ⟨v1, v2, v3, v4, v5⟩ := update_fields_values a (update_fields a t p d st du sta)
    p d st du sta
  obtain ⟨w1, w2, w3, w4, w5⟩ := update_fields_values a t p d st du sta
  have e1 := update_fields_id a (update_fields a t p d st du sta) p d st du sta
  have e2 := update_fields_name a (update_fields a t p d st du sta) p d st du sta
  have e3 := update_fields_category a (update_fields a t p d st du sta) p d st du sta
  rw [w4, updated_text_idem, ← w4] at v4
  rw [w5, updated_text_idem, ← w5] at v5
  have u1 : (update_fields a (update_fields a t p d st du sta) p d st du sta).priority =
      (update_fields a t p d st du sta).priority := by
    rw [v1, w1]; split <;> rfl
  have u2 : (update_fields a (update_fields a t p d st du sta) p d st du sta).duration_mins =
      (update_fields a t p d st du sta).duration_mins := by
    rw [v2, w2]; split <;> rfl
  have u3 : (update_fields a (update_fields a t p d st du sta) p d st du sta).status =
      (update_fields a t p d st du sta).status := by
    rw [v3, w3]; split <;> rfl
  generalize update_fields a (update_fields a t p d st du sta) p d st du sta = x at *
  generalize update_fields a t p d st du sta = y at *
  cases x; cases y
  simp_all

theorem update_fields_new_task (a : Alloc) (tid : Int) {n : Option String}
    (c : Option String) (p : Int) (d st : Option String) (du sta : Int) (ha : a.dups_ok)
    (hn : valid_name n) :
    update_fields a (new_task a tid n c p d st du sta) p d st du sta =
      new_task a tid n c p d st du sta := by
  obtain ⟨v1, v2, v3, v4, v5⟩ := update_fields_values a (new_task a tid n c p d st du sta)
    p d st du sta
  have e1 := update_fields_id a (new_task a tid n c p d st du sta) p d st du sta
  have e2 := update_fields_name a (new_task a tid n c p d st du sta) p d st du sta
  have e3 := update_fields_category a (new_task a tid n c p d st du sta) p d st du sta
  rw [new_task_fields ha tid hn] at v1 v2 v3 v4 v5 e1 e2 e3 ⊢
  obtain ⟨_, _, h3, h4⟩ := ha
  simp only [h3, h4] at v4 v5
  have u1 : (if p = -1 then p else p) = p := by split <;> rfl
  have u2 : (if du = -1 then du else du) = du := by split <;> rfl
  have u3 : (if sta = -1 then sta else sta) = sta := by split <;> rfl
  simp only [u1, u2, u3] at v1 v2 v3
  have u4 : updated_text true a.deadline_retry_ok (some (d.getD "")) d = some (d.getD "") := by
    cases d <;> rfl
  have u5 : updated_text true a.start_time_retry_ok (some (st.getD "")) st =
      some (st.getD "") := by
    cases st <;> rfl
  rw [u4] at v4
  rw [u5] at v5
  generalize update_fields a _ p d st du sta = x at *
  cases x
  simp_all

theorem bump_idem (id n0 n1 : Int) (h : n1 = if id ≥ n0 then wrap (id + 1) else n0) :
    (if id ≥ n1 then wrap (id + 1) else n1) = n1 := by
  subst h
  by_cases h0 : id ≥ n0
  · simp only [h0, if_true]; split <;> rfl
  · simp only [h0, if_false]

theorem advance_fields (s : Store) (id : Int) :
    (advance s id).g_count = s.g_count ∧
      (advance s id).g_next_id = (if id ≥ s.g_next_id then wrap (id + 1) else s.g_next_id) := by
  unfold advance; split <;> exact ⟨rfl, rfl⟩

theorem add_internal_no_room {a : Alloc} {s s1 : Store} {id r : Int} {n c : Option String}
    {p : Int} {d st : Option String} {du sta : Int} {f : Bool} (h : WF s)
    (hv : valid_name n) (hno : ¬ a.room s)
    (he : tm_add_internal a s id n c p d st du sta f = .ok (s1, r)) : s1 = s ∧ r = -1 := by
  have hname : ¬ (n = none ∨ n = some "") := fun hc => hc.elim hv.1 hv.2
  unfold tm_add_internal at he
  simp only [hname, if_false] at he
  cases hs1 : tm_ensure_cap a s (wrap (s.g_count + 1)) with
  | error e2 => rw [hs1] at he; cases he
  | ok s1' =>
    rw [hs1] at he
    obtain ⟨_, _, hcnt, _, _, hor⟩ := ensure_cap_spec h hs1
    have hlt : s1'.g_cap < wrap (s1'.g_count + 1) := by
      simp only [Alloc.room, hs1] at hno
      rw [hcnt]; omega
    simp only [hlt, if_true] at he
    obtain ⟨h1, h2⟩ := Prod.mk.inj (Except.ok.inj he)
    refine ⟨?_, h2.symm⟩
    rw [← h1]
    rcases hor with hs | ⟨hge, _⟩
    · exact hs
    · rw [hcnt] at hlt; omega

theorem add_internal_dups_fail (a : Alloc) {s : Store} (id : Int) {n : Option String}
    (c : Option String) (p : Int) (d st : Option String) (du sta : Int) (f : Bool)
    (h : WF s) (hv : valid_name n) (hroom : a.room s) (hd : ¬ a.dups_ok) :
    ∃ s1, tm_add_internal a s id n c p d st du sta f = .ok (s1, -1) ∧ WF s1 ∧
      s1.records = s.records ∧ s1.g_count = s.g_count ∧ s1.g_next_id = add_next s id f ∧
      wrap (s.g_count + 1) ≤ s1.g_cap := by
  have hname : ¬ (n = none ∨ n = some "") := fun hc => hc.elim hv.1 hv.2
  rcases add_internal_cases a id n c p d st du sta f h with ⟨e, _, _, hno⟩ | ⟨s1, r, he, hsp⟩
  · exact absurd hroom hno
  · obtain ⟨hwf1, _, hcase⟩ := hsp
    rcases hcase with ⟨_, hr1, hrec, hcnt, _⟩ | ⟨_, _, hok, _⟩
    · subst hr1
      refine ⟨s1, he, hwf1, hrec, hcnt, ?_⟩
      unfold tm_add_internal at he
      simp only [hname, if_false] at he
      cases hs1 : tm_ensure_cap a s (wrap (s.g_count + 1)) with
      | error e2 => rw [hs1] at he; cases he
      | ok s1' =>
        rw [hs1] at he
        obtain ⟨_, _, hcnt', hnext', _, _⟩ := ensure_cap_spec h hs1
        have hge : ¬ s1'.g_cap < wrap (s1'.g_count + 1) := by
          simp only [Alloc.room, hs1] at hroom
          rw [hcnt']; omega
        have hbad := (new_task_bad a (if f = true then id else s1'.g_next_id) n c p d st du
          sta).2 hd
        simp only [hge, if_false, hbad, if_true] at he
        have h1 := (Prod.mk.inj (Except.ok.inj he)).1
        rw [← h1]
        simp only [Alloc.room, hs1] at hroom
        constructor
        · unfold add_next; rw [← hnext']
          split
          · split <;> rfl
          · rfl
        · split
          · split <;> exact hroom
          · exact hroom
    · exact absurd hok hd

theorem room_of_cap {a : Alloc} {s : Store} (h : wrap (s.g_count + 1) ≤ s.g_cap) :
    a.room s := by
  have hge : s.g_cap ≥ wrap (s.g_count + 1) := h
  simp only [Alloc.room, tm_ensure_cap, hge, if_true]

theorem add_next_idem (s s1 : Store) (id : Int) (h : s1.g_next_id = add_next s id true) :
    add_next s1 id true = s1.g_next_id := by
  simp only [add_next, if_true] at h ⊢
  exact bump_idem id s.g_next_id s1.g_next_id h

/-! ## C11 -/

/-- C11, as stated, fails: an upsert with identifier 5 into the initial store during which
the duplication of the name fails returns -1; the same upsert made again, every allocation
granted, returns 5 and stores a record. And the upsert of the scenario of the
specification, made again while the duplication of the deadline fails, returns 5 again but
leaves the empty string as deadline of the record. -/
theorem C11_counterexample :
    tm_add_task_with_id Alloc.name_fails Store.initial 5 (some "a") none 0 none none 0 0 =
        .ok (failed_upsert_state, -1) ∧
      tm_add_task_with_id Alloc.granted failed_upsert_state 5 (some "a") none 0 none none 0 0 =
        .ok (retried_upsert_state, 5) ∧
      retried_upsert_state.records ≠ failed_upsert_state.records ∧ (5 : Int) ≠ -1 ∧
      tm_add_task_with_id Alloc.granted Store.initial 5 (some "Imported") (some "x") 3
        (some "2025-02-01") (some "10:00") 30 0 = .ok (imported_state, 5) ∧
      tm_add_task_with_id Alloc.deadline_fails imported_state 5 (some "Imported") (some "x") 3
        (some "2025-02-01") (some "10:00") 30 0 = .ok (imported_lost_deadline, 5) ∧
      imported_lost_deadline.records ≠ imported_state.records :=
  ⟨rfl, rfl, by decide, by decide, rfl, rfl, by decide⟩

/-- C11, amended: for every reachable store state, every argument tuple and every outcome of
the allocator calls, when `tm_add_task_with_id` returns and is called again with the same
tuple and the same allocator outcomes, the second call returns the same value and leaves
the records, the count and the counter as the first call left them; and the first call does
return whenever fewer than 2^30 records are stored. -/
theorem C11_upsert_idempotent (a : Alloc) (s : Store) (id : Int) (n c : Option String)
    (p : Int) (d st : Option String) (du sta : Int) (hr : Reachable s) :
    (∀ s1 r1, tm_add_task_with_id a s id n c p d st du sta = .ok (s1, r1) →
      ∃ s2, tm_add_task_with_id a s1 id n c p d st du sta = .ok (s2, r1) ∧
        s2.records = s1.records ∧ s2.g_count = s1.g_count ∧ s2.g_next_id = s1.g_next_id) ∧
    (s.g_count < 1073741824 →
      ∃ s1 r1, tm_add_task_with_id a s id n c p d st du sta = .ok (s1, r1)) := by
  have h := hr.wf
  refine ⟨?_, fun hc => step_returns a (.add_task_with_id id n c p d st du sta) h hc⟩
  intro s1 r1 he
  have hwf1 : WF s1 :=
    step_wf (c := .add_task_with_id id n c p d st du sta) h he
  by_cases hid : id ≤ 0
  · rw [upsert_nonpos a s id n c p d st du sta hid] at he
    obtain ⟨h1, h2⟩ := Prod.mk.inj (Except.ok.inj he)
    subst h1; subst h2
    exact ⟨s, upsert_nonpos a s id n c p d st du sta hid, rfl, rfl, rfl⟩
  · have hpos : 0 < id := by omega
    by_cases hex : ∃ t ∈ s.records, t.id = id
    · -- the identifier is stored: both calls update the same record
      obtain ⟨u1, _, hsp, he1⟩ := upsert_present a id n c p d st du sta h hpos hex
      rw [he1] at he
      obtain ⟨h1, h2⟩ := Prod.mk.inj (Except.ok.inj he)
      subst h2
      obtain ⟨_, hcnt1, _, hnext1, hcase⟩ := hsp
      rcases hcase with ⟨h0, _⟩ | ⟨_, i, t, hf, hrec⟩
      · omega
      · have hrec1 : s1.records = s.records.set i (update_fields a t p d st du sta) := by
          rw [← h1, advance_records, hrec]
        have hf1 : FirstAt s1 id i (update_fields a t p d st du sta) :=
          firstAt_of_set hf hrec1 (by rw [update_fields_id]; exact hf.2.1)
        obtain ⟨u2, _, hsp2, he2⟩ := upsert_present a id n c p d st du sta hwf1 hpos
          ⟨_, List.getElem?_mem hf1.1, hf1.2.1⟩
        obtain ⟨_, hcnt2, _, hnext2, hcase2⟩ := hsp2
        rcases hcase2 with ⟨h0, _⟩ | ⟨_, i2, t2, hf2, hrec2⟩
        · omega
        · obtain ⟨hi, ht⟩ := hf1.unique hf2
          subst hi; subst ht
          refine ⟨advance u2 id, he2, ?_, ?_, ?_⟩
          · rw [advance_records, hrec2, update_fields_idem]
            exact set_same hf1.1
          · rw [(advance_fields u2 id).1, hcnt2]
          · rw [(advance_fields u2 id).2, hnext2]
            apply bump_idem id u1.g_next_id
            rw [← h1]; exact (advance_fields u1 id).2
    · -- the identifier is not stored: the first call goes through `tm_add_internal`
      have hnot : ∀ t ∈ s.records, t.id ≠ id := fun t ht heq => hex ⟨t, ht, heq⟩
      rw [upsert_absent a id n c p d st du sta h hpos hnot] at he
      by_cases hv : valid_name n
      · by_cases hroom : a.room s
        · by_cases hd : a.dups_ok
          · -- the record is appended; the second call updates it with its own values
            obtain ⟨s1', he', _, hrec, _, hnext⟩ :=
              add_internal_success a id c p d st du sta true h hv ⟨hroom, hd⟩
            rw [he'] at he
            obtain ⟨h1, h2⟩ := Prod.mk.inj (Except.ok.inj he)
            subst h1
            simp only [add_id, if_true] at h2 hrec
            subst h2
            have hf1 : FirstAt s1' id s.records.length (new_task a id n c p d st du sta) :=
              firstAt_of_append hnot hrec rfl
            obtain ⟨u2, _, hsp2, he2⟩ := upsert_present a id n c p d st du sta hwf1 hpos
              ⟨_, List.getElem?_mem hf1.1, hf1.2.1⟩
            obtain ⟨_, hcnt2, _, hnext2, hcase2⟩ := hsp2
            rcases hcase2 with ⟨h0, _⟩ | ⟨_, i2, t2, hf2, hrec2⟩
            · omega
            · obtain ⟨hi, ht⟩ := hf1.unique hf2
              subst hi; subst ht
              refine ⟨advance u2 id, he2, ?_, ?_, ?_⟩
              · rw [advance_records, hrec2, update_fields_new_task a id c p d st du sta hd hv]
                exact set_same hf1.1
              · rw [(advance_fields u2 id).1, hcnt2]
              · rw [(advance_fields u2 id).2, hnext2]
                apply bump_idem id s.g_next_id
                rw [hnext]; simp only [add_next, if_true]
          · -- a duplication fails in both calls
            obtain ⟨s1', he', _, hrec, hcnt, hnext, hcap⟩ :=
              add_internal_dups_fail a id c p d st du sta true h hv hroom hd
            rw [he'] at he
            obtain ⟨h1, h2⟩ := Prod.mk.inj (Except.ok.inj he)
            subst h1; subst h2
            have hnot1 : ∀ t ∈ s1'.records, t.id ≠ id := by rw [hrec]; exact hnot
            have hroom1 : a.room s1' := room_of_cap (by rw [hcnt]; exact hcap)
            obtain ⟨s2, he2, _, hrec2, hcnt2, hnext2, _⟩ :=
              add_internal_dups_fail a id c p d st du sta true hwf1 hv hroom1 hd
            refine ⟨s2, ?_, hrec2, hcnt2, ?_⟩
            · rw [upsert_absent a id n c p d st du sta hwf1 hpos hnot1]; exact he2
            · rw [hnext2]; exact add_next_idem s s1' id hnext
        · -- no room is obtained: the store is as before and the second call repeats the first
          obtain ⟨h1, h2⟩ := add_internal_no_room h hv hroom he
          subst h1; subst h2
          refine ⟨s1, ?_, rfl, rfl, rfl⟩
          rw [upsert_absent a id n c p d st du sta h hpos hnot]; exact he
      · -- the name is rejected in both calls
        have hname : n = none ∨ n = some "" := by
          unfold valid_name at hv
          by_cases h1 : n = none
          · exact Or.inl h1
          · by_cases h2 : n = some ""
            · exact Or.inr h2
            · exact absurd ⟨h1, h2⟩ hv
        simp only [tm_add_internal, hname, if_true] at he
        obtain ⟨h1, h2⟩ := Prod.mk.inj (Except.ok.inj he)
        subst h1; subst h2
        refine ⟨s, ?_, rfl, rfl, rfl⟩
        rw [upsert_absent a id n c p d st du sta h hpos hnot]
        simp only [tm_add_internal, hname, if_true]

/-- C11, amended, on the upsert of the scenario of the specification made twice into the
initial store. -/
theorem C11_upsert_idempotent_witness :
    Reachable Store.initial ∧
      (∀ s1 r1, tm_add_task_with_id Alloc.granted Store.initial 5 (some "Imported") (some "x")
          3 (some "2025-02-01") (some "10:00") 30 0 = .ok (s1, r1) →
        ∃ s2, tm_add_task_with_id Alloc.granted s1 5 (some "Imported") (some "x") 3
            (some "2025-02-01") (some "10:00") 30 0 = .ok (s2, r1) ∧
          s2.records = s1.records ∧ s2.g_count = s1.g_count ∧
          s2.g_next_id = s1.g_next_id) ∧
      Store.initial.g_count < 1073741824 ∧
      ∃ s1 r1, tm_add_task_with_id Alloc.granted Store.initial 5 (some "Imported") (some "x")
        3 (some "2025-02-01") (some "10:00") 30 0 = .ok (s1, r1) :=
  ⟨⟨[], rfl⟩,
    (C11_upsert_idempotent Alloc.granted Store.initial 5 (some "Imported") (some "x") 3
      (some "2025-02-01") (some "10:00") 30 0 ⟨[], rfl⟩).1,
    by decide,
    (C11_upsert_idempotent Alloc.granted Store.initial 5 (some "Imported") (some "x") 3
      (some "2025-02-01") (some "10:00") 30 0 ⟨[], rfl⟩).2 (by decide)⟩

/-! ## C12 -/

/-- C12, as stated, fails: in the store after the first call of the scenario of the
specification, an update of record 1 with the deadline "2025-01-11" during which the
duplication of the deadline fails returns 1 and leaves the empty string as deadline, neither
the supplied text nor the prior one. -/
theorem C12_counterexample :
    run Store.initial [report_call] = .ok report_state ∧
      report_state.records.map Task.deadline = [some "2025-01-10"] ∧
      tm_update_task Alloc.deadline_fails report_state 1 (-1) (some "2025-01-11") none (-1)
        (-1) = .ok (report_lost_deadline, 1) ∧
      report_lost_deadline.records.map Task.deadline = [some ""] :=
  ⟨rfl, by decide, rfl, by decide⟩

/-- C12, amended: for every reachable store state and every id whose first matching record
is `t` at index `i`, `tm_update_task` returns 1 and afterwards the record at index `i` has
each of priority, duration_mins, status equal to the supplied value if it is not -1 and to
the prior value otherwise, and each of deadline, start_time equal to the prior text if the
argument is NULL, to the supplied text if its duplication succeeds, and to the empty string
if it fails (to NULL if the duplication of the empty string fails as well); the id, name
and category of the record, every other record, the order, the count and the counter are
unchanged; with the keep sentinel on every field the whole store is unchanged. -/
theorem C12_update_is_field_precise (a : Alloc) (s : Store) (id p : Int)
    (d st : Option String) (du sta : Int) (i : Nat) (t : Task) (hr : Reachable s)
    (hf : FirstAt s id i t) :
    ∃ s' t', tm_update_task a s id p d st du sta = .ok (s', 1) ∧
      s'.records = s.records.set i t' ∧
      t'.priority = (if p = -1 then t.priority else p) ∧
      t'.duration_mins = (if du = -1 then t.duration_mins else du) ∧
      t'.status = (if sta = -1 then t.status else sta) ∧
      t'.deadline = updated_text a.deadline_ok a.deadline_retry_ok t.deadline d ∧
      t'.start_time = updated_text a.start_time_ok a.start_time_retry_ok t.start_time st ∧
      t'.id = t.id ∧ t'.name = t.name ∧ t'.category = t.category ∧
      s'.g_count = s.g_count ∧ s'.g_next_id = s.g_next_id ∧
      (p = -1 → d = none → st = none → du = -1 → sta = -1 → s' = s) := by
  obtain ⟨s', r, he, _, hcnt, _, hnext, hcase⟩ := update_cases a id p d st du sta hr.wf
  rcases hcase with ⟨_, _, hnot⟩ | ⟨h1, i', t', hf', hrec⟩
  · exact absurd hf.2.1 (hnot t (List.getElem?_mem hf.1))
  · subst h1
    obtain ⟨hi, ht⟩ := hf.unique hf'
    subst hi; subst ht
    obtain ⟨v1, v2, v3, v4, v5⟩ := update_fields_values a t p d st du sta
    refine ⟨s', _, he, hrec, v1, v2, v3, v4, v5, update_fields_id _ _ _ _ _ _ _,
      update_fields_name _ _ _ _ _ _ _, update_fields_category _ _ _ _ _ _ _, hcnt, hnext, ?_⟩
    intro hp hd hst hdu hsta
    subst hp; subst hd; subst hst; subst hdu; subst hsta
    rw [update_keep a hr.wf hf] at he
    exact (Prod.mk.inj (Except.ok.inj he)).1.symm

/-- C12, amended, on an update of record 5 in the store after `sample_calls` that sets the
priority, the deadline and the status and keeps the start_time and the duration. -/
theorem C12_update_is_field_precise_witness :
    Reachable sample_state ∧ FirstAt sample_state 5 1 (plain_task 5 "Imported") ∧
      ∃ s' t', tm_update_task Alloc.granted sample_state 5 7 (some "2025-03-01") none (-1) 1 =
          .ok (s', 1) ∧
        s'.records = sample_state.records.set 1 t' ∧
        t'.priority = (if (7 : Int) = -1 then (plain_task 5 "Imported").priority else 7) ∧
        t'.duration_mins =
          (if (-1 : Int) = -1 then (plain_task 5 "Imported").duration_mins else -1) ∧
        t'.status = (if (1 : Int) = -1 then (plain_task 5 "Imported").status else 1) ∧
        t'.deadline = updated_text Alloc.granted.deadline_ok Alloc.granted.deadline_retry_ok
          (plain_task 5 "Imported").deadline (some "2025-03-01") ∧
        t'.start_time =
          updated_text Alloc.granted.start_time_ok Alloc.granted.start_time_retry_ok
            (plain_task 5 "Imported").start_time none ∧
        t'.id = (plain_task 5 "Imported").id ∧ t'.name = (plain_task 5 "Imported").name ∧
        t'.category = (plain_task 5 "Imported").category ∧
        s'.g_count = sample_state.g_count ∧ s'.g_next_id = sample_state.g_next_id ∧
        ((7 : Int) = -1 → (some "2025-03-01" : Option String) = none →
          (none : Option String) = none → (-1 : Int) = -1 → (1 : Int) = -1 →
          s' = sample_state) :=
  ⟨⟨sample_calls, rfl⟩, ⟨by decide, by decide, by decide⟩,
    C12_update_is_field_precise Alloc.granted sample_state 5 7 (some "2025-03-01") none (-1) 1
      1 (plain_task 5 "Imported") ⟨sample_calls, rfl⟩ ⟨by decide, by decide, by decide⟩⟩

/-! ## C13 -/

/-- C13: for every reachable store state, every id and all field arguments, `tm_update_task`
returns 0 if and only if no stored record has that id, and in that case the store is
unchanged. -/
theorem C13_update_missing (a : Alloc) (s : Store) (id p : Int) (d st : Option String)
    (du sta : Int) (hr : Reachable s) :
    ∃ s' r, tm_update_task a s id p d st du sta = .ok (s', r) ∧
      (r = 0 ↔ ∀ t ∈ s.records, t.id ≠ id) ∧ (r = 0 → s' = s) := by
  obtain ⟨s', r, he, _, _, _, _, hcase⟩ := update_cases a id p d st du sta hr.wf
  refine ⟨s', r, he, ?_, ?_⟩
  · rcases hcase with ⟨h0, _, hnot⟩ | ⟨h1, i, t, hf, _⟩
    · exact ⟨fun _ => hnot, fun _ => h0⟩
    · constructor
      · intro h; omega
      · intro h; exact absurd hf.2.1 (h t (List.getElem?_mem hf.1))
  · rcases hcase with ⟨_, hs, _⟩ | ⟨h1, _⟩
    · exact fun _ => hs
    · intro h; omega

/-- C13, on an update with the absent identifier 1 in the store after `sample_calls`. -/
theorem C13_update_missing_witness :
    Reachable sample_state ∧
      ∃ s' r, tm_update_task Alloc.granted sample_state 1 3 (some "2025-01-11") none (-1) 1 =
          .ok (s', r) ∧
        (r = 0 ↔ ∀ t ∈ sample_state.records, t.id ≠ 1) ∧ (r = 0 → s' = sample_state) :=
  ⟨⟨sample_calls, rfl⟩,
    C13_update_missing Alloc.granted sample_state 1 3 (some "2025-01-11") none (-1) 1
      ⟨sample_calls, rfl⟩⟩

/-! ## C14 -/

/-- C14: for every reachable store state with n records and every id whose first matching
record is at index i, `tm_delete_task` returns 1, the count becomes n - 1, for i < n - 1 the
slot i holds the record that was last, every slot j < n - 1 other than i holds the record it
held, and the counter is unchanged; when i = n - 1 the remaining n - 1 records keep their
order. -/
theorem C14_swap_delete (s : Store) (id : Int) (i : Nat) (t : Task) (hr : Reachable s)
    (hf : FirstAt s id i t) :
    ∃ s', tm_delete_task s id = .ok (s', 1) ∧ s'.g_count = s.g_count - 1 ∧
      s'.records.length = s.records.length - 1 ∧
      (i < s.records.length - 1 → s'.records[i]? = s.records[s.records.length - 1]?) ∧
      (∀ j, j < s.records.length - 1 → j ≠ i → s'.records[j]? = s.records[j]?) ∧
      s'.g_next_id = s.g_next_id ∧
      (i = s.records.length - 1 → s'.records = s.records.take (s.records.length - 1)) := by
  obtain ⟨s', r, he, _, _, hnext, hcase⟩ := delete_cases id hr.wf
  rcases hcase with ⟨_, _, hnot⟩ | ⟨h1, hcnt, i', t', hf', hrec⟩
  · exact absurd hf.2.1 (hnot t (List.getElem?_mem hf.1))
  · subst h1
    obtain ⟨hi, _⟩ := hf.unique hf'
    subst hi
    refine ⟨s', he, hcnt, by rw [hrec, swap_delete_length], ?_, ?_, hnext, ?_⟩
    · intro hlt
      rw [hrec, swap_delete_getElem?]
      simp [hlt]
    · intro j hj hji
      rw [hrec, swap_delete_getElem?]
      have : ¬ i = j := fun h => hji h.symm
      simp [hj, this]
    · intro hil
      rw [hrec]
      apply List.ext_getElem?
      intro j
      rw [swap_delete_getElem?, List.getElem?_take]
      split
      · rename_i hj
        have : ¬ i = j := by omega
        simp [this]
      · rfl

/-- C14, on the delete of the scenario of the specification: the record with id 1 is first
of two, and the record with id 2 takes its slot. -/
theorem C14_swap_delete_witness :
    Reachable sample_mid ∧ FirstAt sample_mid 1 0 (plain_task 1 "Write report") ∧
      ∃ s', tm_delete_task sample_mid 1 = .ok (s', 1) ∧
        s'.g_count = sample_mid.g_count - 1 ∧
        s'.records.length = sample_mid.records.length - 1 ∧
        (0 < sample_mid.records.length - 1 →
          s'.records[0]? = sample_mid.records[sample_mid.records.length - 1]?) ∧
        (∀ j, j < sample_mid.records.length - 1 → j ≠ 0 →
          s'.records[j]? = sample_mid.records[j]?) ∧
        s'.g_next_id = sample_mid.g_next_id ∧
        (0 = sample_mid.records.length - 1 →
          s'.records = sample_mid.records.take (sample_mid.records.length - 1)) :=
  ⟨⟨sample_calls.take 2, rfl⟩, ⟨by decide, by decide, by decide⟩,
    C14_swap_delete sample_mid 1 0 (plain_task 1 "Write report") ⟨sample_calls.take 2, rfl⟩
      ⟨by decide, by decide, by decide⟩⟩

/-! ## C15 -/

/-- C15: for every reachable store state and every id, `tm_delete_task` returns 0 if and
only if no stored record has that id, and in that case the store is unchanged; otherwise it
returns 1. -/
theorem C15_delete_missing (s : Store) (id : Int) (hr : Reachable s) :
    ∃ s' r, tm_delete_task s id = .ok (s', r) ∧
      (r = 0 ↔ ∀ t ∈ s.records, t.id ≠ id) ∧ (r = 0 → s' = s) ∧ (r ≠ 0 → r = 1) := by
  obtain ⟨s', r, he, _, _, _, hcase⟩ := delete_cases id hr.wf
  refine ⟨s', r, he, ?_, ?_, ?_⟩
  · rcases hcase with ⟨h0, _, hnot⟩ | ⟨h1, _, i, t, hf, _⟩
    · exact ⟨fun _ => hnot, fun _ => h0⟩
    · constructor
      · intro h; omega
      · intro h; exact absurd hf.2.1 (h t (List.getElem?_mem hf.1))
  · rcases hcase with ⟨_, hs, _⟩ | ⟨h1, _⟩
    · exact fun _ => hs
    · intro h; omega
  · rcases hcase with ⟨h0, _⟩ | ⟨h1, _⟩
    · intro h; exact absurd h0 h
    · exact fun _ => h1

/-- C15, on a delete with the absent identifier 1 in the store after `sample_calls`. -/
theorem C15_delete_missing_witness :
    Reachable sample_state ∧
      ∃ s' r, tm_delete_task sample_state 1 = .ok (s', r) ∧
        (r = 0 ↔ ∀ t ∈ sample_state.records, t.id ≠ 1) ∧ (r = 0 → s' = sample_state) ∧
        (r ≠ 0 → r = 1) :=
  ⟨⟨sample_calls, rfl⟩, C15_delete_missing sample_state 1 ⟨sample_calls, rfl⟩⟩

/-! ## C16 -/

/-- C16, as stated, fails: after `tm_reset` of the store reached by `sample_calls`, a create
with a non-empty name during which the duplication of the name fails returns -1, not 1. -/
theorem C16_counterexample :
    run Store.initial sample_calls = .ok sample_state ∧
      tm_reset sample_state = .ok Store.initial ∧
      tm_add_task Alloc.name_fails Store.initial (some "a") none 0 none none 0 0 =
        .ok (failed_create_state, -1) ∧
      (-1 : Int) ≠ 1 :=
  ⟨rfl, rfl, rfl, by decide⟩

/-- C16, amended: for every reachable store state, after `tm_reset` the store has zero
records and the counter is 1, so the next `tm_add_task` with a non-empty name (allocation
succeeding) returns identifier 1. -/
theorem C16_reset_clears (s : Store) (hr : Reachable s) :
    ∃ s0, tm_reset s = .ok s0 ∧ s0.records = [] ∧ s0.g_count = 0 ∧ s0.g_next_id = 1 ∧
      ∀ (a : Alloc) (n c : Option String) (p : Int) (d st : Option String) (du sta : Int),
        valid_name n → a.succeeds s0 →
        ∃ s1, tm_add_task a s0 n c p d st du sta = .ok (s1, 1) := by
  refine ⟨Store.initial, reset_eq hr.wf, rfl, rfl, rfl, ?_⟩
  intro a n c p d st du sta hn ha
  obtain ⟨s1, he, _⟩ := add_internal_success a 0 c p d st du sta false WF.of_initial hn ha
  exact ⟨s1, he⟩

/-- C16, amended, on the store after `sample_calls`. -/
theorem C16_reset_clears_witness :
    Reachable sample_state ∧
      ∃ s0, tm_reset sample_state = .ok s0 ∧ s0.records = [] ∧ s0.g_count = 0 ∧
        s0.g_next_id = 1 ∧
        ∀ (a : Alloc) (n c : Option String) (p : Int) (d st : Option String) (du sta : Int),
          valid_name n → a.succeeds s0 →
          ∃ s1, tm_add_task a s0 n c p d st du sta = .ok (s1, 1) :=
  ⟨⟨sample_calls, rfl⟩, C16_reset_clears sample_state ⟨sample_calls, rfl⟩⟩

/-! ## C17 -/

/-- C17: for every reachable store state, `tm_init` leaves the store (records, order, count,
capacity and counter) as it is; so calling it twice equals calling it once. -/
theorem C17_init_keeps_state (s : Store) (hr : Reachable s) :
    tm_init s = s ∧ tm_init (tm_init s) = tm_init s := by
  have h := init_eq hr.wf
  exact ⟨h, by rw [h, h]⟩

/-- C17, on the store in which the only record has been deleted. -/
theorem C17_init_keeps_state_witness :
    Reachable emptied_state ∧ emptied_state.records = [] ∧
      tm_init emptied_state = emptied_state ∧
      tm_init (tm_init emptied_state) = tm_init emptied_state :=
  ⟨⟨emptied_calls, rfl⟩, by decide, C17_init_keeps_state emptied_state ⟨emptied_calls, rfl⟩⟩

/-! ## C18 -/

/-- C18, as stated, fails: after an upsert with identifier `INT_MAX` and a create, the
record the create stored holds identifier `INT_MIN`, which is not positive. -/
theorem C18_counterexample :
    run Store.initial [upsert_call 2147483647 "b", create_call "d"] = .ok wrapped_after ∧
      wrapped_after.records.map Task.id = [2147483647, -2147483648] ∧
      ¬ ∀ t ∈ wrapped_after.records, 0 < t.id :=
  ⟨rfl, by decide, by decide⟩

/-- C18, amended: in every store state reached from the initial store by a sequence of
calls, every stored record has a non-empty name, and, when no call of the sequence takes the
counter past `INT_MAX`, a strictly positive id. -/
theorem C18_records_well_formed (calls : List (Alloc × Call)) (s : Store)
    (hr : run Store.initial calls = .ok s) :
    (∀ t ∈ s.records, t.name ≠ none ∧ t.name ≠ some "") ∧
      (runs_in_range Store.initial calls = true → ∀ t ∈ s.records, 0 < t.id) :=
  ⟨run_names calls Store.initial s WF.of_initial
      (by intro t ht; simp [Store.initial, Store.records] at ht) hr,
    fun hin => (run_inv calls Store.initial s Inv.of_initial_store hin hr).pos⟩

/-- C18, amended, on the calls of `sample_calls`. -/
theorem C18_records_well_formed_witness :
    run Store.initial sample_calls = .ok sample_state ∧
      runs_in_range Store.initial sample_calls = true ∧
      (∀ t ∈ sample_state.records, t.name ≠ none ∧ t.name ≠ some "") ∧
      (∀ t ∈ sample_state.records, 0 < t.id) :=
  ⟨rfl, by decide, (C18_records_well_formed sample_calls sample_state rfl).1,
    (C18_records_well_formed sample_calls sample_state rfl).2 (by decide)⟩

/-! ## C19 -/

/-- C19, as stated, fails: in the store after `overflow_calls` two records hold identifier
3; `tm_delete_task(3)` returns 1 and removes the first of them, a record with identifier 3
is still stored, and a second `tm_delete_task(3)` returns 1, not 0. -/
theorem C19_counterexample :
    run Store.initial overflow_calls = .ok overflow_state ∧
      tm_delete_task overflow_state 3 = .ok (overflow_deleted, 1) ∧
      overflow_deleted.records.map Task.id = [3, 2147483647, 2] ∧
      tm_delete_task overflow_deleted 3 = .ok (overflow_deleted_twice, 1) :=
  ⟨rfl, rfl, by decide, rfl⟩

/-- C19, amended: for every reachable store state in which no two records share an id and
every id held by a stored record, `tm_delete_task` returns 1, afterwards no stored record
has that id, a following `tm_update_task` or `tm_delete_task` with that id returns 0 and
changes nothing, and the stored records are, as a multiset, the previous ones minus the
deleted record. -/
theorem C19_delete_removes_exactly (s : Store) (id : Int) (hr : Reachable s)
    (hu : (s.records.map Task.id).Nodup) (hex : ∃ t ∈ s.records, t.id = id) :
    ∃ s' t, tm_delete_task s id = .ok (s', 1) ∧ t ∈ s.records ∧ t.id = id ∧
      (∀ u ∈ s'.records, u.id ≠ id) ∧
      (∀ (a : Alloc) (p : Int) (d st : Option String) (du sta : Int),
        tm_update_task a s' id p d st du sta = .ok (s', 0)) ∧
      tm_delete_task s' id = .ok (s', 0) ∧
      s.records.Perm (t :: s'.records) := by
  obtain ⟨s', r, he, hwf', _, _, hcase⟩ := delete_cases id hr.wf
  obtain ⟨t0, ht0, hid0⟩ := hex
  rcases hcase with ⟨_, _, hnot⟩ | ⟨h1, _, i, t, hf, hrec⟩
  · exact absurd hid0 (hnot t0 ht0)
  · subst h1
    have hperm : s.records.Perm (t :: s'.records) := by
      rw [hrec]; exact swap_delete_perm_cons hf.1
    have hgone : ∀ u ∈ s'.records, u.id ≠ id := by
      have hnd : ((t :: s'.records).map Task.id).Nodup := (hperm.map Task.id).nodup_iff.1 hu
      simp only [List.map_cons, List.nodup_cons] at hnd
      intro u hu' heq
      apply hnd.1
      rw [hf.2.1, ← heq]
      exact List.mem_map_of_mem _ hu'
    refine ⟨s', t, he, List.getElem?_mem hf.1, hf.2.1, hgone, ?_, ?_, hperm⟩
    · intro a p d st du sta
      obtain ⟨s2, r2, he2, _, _, _, _, hcase2⟩ := update_cases a id p d st du sta hwf'
      rcases hcase2 with ⟨h0, hss, _⟩ | ⟨_, j, u, hfj, _⟩
      · rw [he2, h0, hss]
      · exact absurd hfj.2.1 (hgone u (List.getElem?_mem hfj.1))
    · obtain ⟨s2, r2, he2, _, _, _, hcase2⟩ := delete_cases id hwf'
      rcases hcase2 with ⟨h0, hss, _⟩ | ⟨_, _, j, u, hfj, _⟩
      · rw [he2, h0, hss]
      · exact absurd hfj.2.1 (hgone u (List.getElem?_mem hfj.1))

/-- C19, amended, on the delete of the scenario of the specification. -/
theorem C19_delete_removes_exactly_witness :
    Reachable sample_mid ∧ (sample_mid.records.map Task.id).Nodup ∧
      (∃ t ∈ sample_mid.records, t.id = 1) ∧
      ∃ s' t, tm_delete_task sample_mid 1 = .ok (s', 1) ∧ t ∈ sample_mid.records ∧
        t.id = 1 ∧ (∀ u ∈ s'.records, u.id ≠ 1) ∧
        (∀ (a : Alloc) (p : Int) (d st : Option String) (du sta : Int),
          tm_update_task a s' 1 p d st du sta = .ok (s', 0)) ∧
        tm_delete_task s' 1 = .ok (s', 0) ∧
        sample_mid.records.Perm (t :: s'.records) :=
  ⟨⟨sample_calls.take 2, rfl⟩, by decide, by decide,
    C19_delete_removes_exactly sample_mid 1 ⟨sample_calls.take 2, rfl⟩ (by decide)
      (by decide)⟩

/-! ## C20 -/

/-- C20: in every reachable store state the count lies between 0 and the capacity, which
is the number of slots of the block; `tm_ensure_cap`, when the capacity suffices or
`realloc` returns a block, leaves the capacity at least `need` and the stored records as
they are; an index found by `tm_find_index_by_id` is -1 or lies between 0 and count - 1;
an append by `tm_add_internal` writes at an index, the count before the call, that is
strictly below the capacity; and neither `tm_add_internal` nor any call of the interface
ends in an access outside the block or through `NULL`. -/
theorem C20_storage_bounds (s : Store) (hr : Reachable s) :
    (0 ≤ s.g_count ∧ s.g_count ≤ s.g_cap ∧ ((s.g_tasks.getD []).length : Int) = s.g_cap) ∧
    (∀ (a : Alloc) (need : Int) (s1 : Store), tm_ensure_cap a s need = .ok s1 →
      (s.g_cap ≥ need ∨ a.realloc_ok = true) → need ≤ s1.g_cap ∧ s1.records = s.records) ∧
    (∀ id : Int, ∃ r, tm_find_index_by_id s id = .ok r ∧
      (r = -1 ∨ (0 ≤ r ∧ r < s.g_count ∧ 1 ≤ s.g_count))) ∧
    (∀ (a : Alloc) (id : Int) (n c : Option String) (p : Int) (d st : Option String)
      (du sta : Int) (f : Bool) (s' : Store) (r : Int),
      tm_add_internal a s id n c p d st du sta f = .ok (s', r) →
      s'.g_count = s.g_count + 1 → s.g_count < s'.g_cap) ∧
    (∀ (a : Alloc) (id : Int) (n c : Option String) (p : Int) (d st : Option String)
      (du sta : Int) (f : Bool) (e : Fault),
      tm_add_internal a s id n c p d st du sta f = .error e → e = .diverges) ∧
    (∀ (a : Alloc) (c : Call) (e : Fault), step a s c = .error e → e = .diverges) := by
  have h := hr.wf
  refine ⟨⟨h.count_lo, h.count_hi, h.block⟩, ?_, ?_, ?_, ?_, ?_⟩
  · intro a need s1 he hs
    exact ensure_cap_success h he hs
  · intro id
    obtain ⟨r, he, hsp⟩ := find_spec h id
    refine ⟨r, he, ?_⟩
    rcases hsp with ⟨h1, _⟩ | ⟨h0, hlt, _⟩
    · exact Or.inl h1
    · exact Or.inr ⟨h0, hlt, by omega⟩
  · intro a id n c p d st du sta f s' r he hcnt
    rcases add_internal_cases a id n c p d st du sta f h with ⟨e, he', _⟩ | ⟨s2, r2, he', hsp⟩
    · rw [he'] at he; cases he
    · rw [he'] at he
      have h1 := (Prod.mk.inj (Except.ok.inj he)).1
      subst h1
      have := hsp.1.count_hi
      omega
  · intro a id n c p d st du sta f e he
    exact ensure_cap_error (add_internal_error h he)
  · intro a c e he
    exact step_error h he

/-- C20, on the store after `sample_calls`. -/
theorem C20_storage_bounds_witness :
    Reachable sample_state ∧
    ((0 ≤ sample_state.g_count ∧ sample_state.g_count ≤ sample_state.g_cap ∧
        ((sample_state.g_tasks.getD []).length : Int) = sample_state.g_cap) ∧
      (∀ (a : Alloc) (need : Int) (s1 : Store), tm_ensure_cap a sample_state need = .ok s1 →
        (sample_state.g_cap ≥ need ∨ a.realloc_ok = true) →
        need ≤ s1.g_cap ∧ s1.records = sample_state.records) ∧
      (∀ id : Int, ∃ r, tm_find_index_by_id sample_state id = .ok r ∧
        (r = -1 ∨ (0 ≤ r ∧ r < sample_state.g_count ∧ 1 ≤ sample_state.g_count))) ∧
      (∀ (a : Alloc) (id : Int) (n c : Option String) (p : Int) (d st : Option String)
        (du sta : Int) (f : Bool) (s' : Store) (r : Int),
        tm_add_internal a sample_state id n c p d st du sta f = .ok (s', r) →
        s'.g_count = sample_state.g_count + 1 → sample_state.g_count < s'.g_cap) ∧
      (∀ (a : Alloc) (id : Int) (n c : Option String) (p : Int) (d st : Option String)
        (du sta : Int) (f : Bool) (e : Fault),
        tm_add_internal a sample_state id n c p d st du sta f = .error e → e = .diverges) ∧
      (∀ (a : Alloc) (c : Call) (e : Fault),
        step a sample_state c = .error e → e = .diverges)) :=
  ⟨⟨sample_calls, rfl⟩, C20_storage_bounds sample_state ⟨sample_calls, rfl⟩⟩

end OptiTask
